import Mathlib

/-!
Verification of the Vidurai memory-retention core against its
specification.  The repository ships only documentation; every definition
below is a shallow embedding modelled from the specification's words
(tiered store, scoring/decay engine, compression engine, policy agent),
with importance values represented as rationals and the transcendental
decay curve `exp (-rate * t)` treated over the reals where the exact
formula matters and as an injected bounded factor function elsewhere.
-/

namespace Vidurai

/-- Modelled from the spec: the three memory tiers (koshas): working
(Annamaya), episodic (Manomaya) and wisdom (Vijnanamaya). -/
inductive Tier
  | working
  | episodic
  | wisdom
deriving DecidableEq

/-- Modelled from the spec: a memory record with identity, session owner,
payload, category, importance in [0,1], tier placement, timestamps and
free-form metadata. -/
structure MemoryRecord where
  id : Nat
  sessionId : String
  content : String
  category : String
  importance : ℚ
  tier : Tier
  createdAt : Nat
  updatedAt : Nat
  metadata : List (String × String)
deriving DecidableEq

/-- Modelled from the spec: the error kinds of the error-handling design
(ValidationError, NotFoundError, CapabilityUnavailableError,
QuotaExceededError). -/
inductive Err
  | validation
  | notFound
  | capabilityUnavailable
  | quotaExceeded
deriving DecidableEq

/-- Modelled from the spec: the explicit configuration structure
enumerating the recognized options (capacities, thresholds, decay
switch). -/
structure Config where
  workingCapacity : Nat
  workingTTL : Nat
  episodicCapacity : Nat
  tokenBudget : Nat
  compressionThreshold : ℚ
  wisdomThreshold : ℚ
  promoteOnEvict : ℚ
  protectThreshold : ℚ
  batchSize : Nat
  enableDecay : Bool
deriving DecidableEq

/-- Modelled from the spec: documented defaults — working capacity 10
("last 10 messages"), wisdom consolidation threshold 0.9
(`wisdom_threshold=0.9`), balanced compression threshold in the
documented 0.6–0.9 range, decay enabled by default. -/
def defaultConfig : Config :=
  { workingCapacity := 10
    workingTTL := 100
    episodicCapacity := 1000
    tokenBudget := 4000
    compressionThreshold := mkRat 8 10
    wisdomThreshold := mkRat 9 10
    promoteOnEvict := mkRat 7 10
    protectThreshold := mkRat 7 10
    batchSize := 5
    enableDecay := true }

/-- Modelled from the spec: the tiered store.  Records are kept in
insertion order (so the first working-tier record in the list is the
FIFO-oldest); `nextId` supplies fresh identities and `clock` is the
logical timestamp advanced by each mutating operation. -/
structure Store where
  records : List MemoryRecord
  nextId : Nat
  clock : Nat
deriving DecidableEq

def emptyStore : Store := { records := [], nextId := 0, clock := 0 }

/-- Clamp a rational into the importance range [0,1]. -/
def clamp01 (x : ℚ) : ℚ := max 0 (min 1 x)

/-- Modelled from the spec: the category prior of the scoring engine —
"fact" defaults higher than "conversation". -/
def categoryPrior (c : String) : ℚ :=
  if c = "fact" then mkRat 8 10
  else if c = "preference" then mkRat 8 10
  else if c = "goal" then mkRat 7 10
  else if c = "context" then mkRat 6 10
  else if c = "conversation" then mkRat 4 10
  else mkRat 1 2

/-- Modelled from the spec: the automatic initial score — a weighted
combination of recency (maximal at creation), frequency (zero at
creation), the injected semantic-significance signal `sem`, and the
category prior, clamped into [0,1]. -/
def autoScore (sem : ℚ) (category : String) : ℚ :=
  clamp01 ((1 + 0 + sem + categoryPrior category) / 4)

/-- Modelled from the spec: lazy decay at read time.  The spec's factor
is `exp (-decay_rate * elapsed)`; since that factor is transcendental it
is injected here as a factor function `dfac : Nat → ℚ` of the elapsed
time (the real-analytic development below proves the exponential curve
satisfies every bound imposed on `dfac`).  Working-tier records do not
decay and wisdom-tier records are frozen at their promoted value. -/
def effImp (cfg : Config) (dfac : Nat → ℚ) (now : Nat) (r : MemoryRecord) : ℚ :=
  if r.tier = Tier.wisdom then r.importance
  else if r.tier = Tier.working then r.importance
  else if cfg.enableDecay then r.importance * dfac (now - r.createdAt)
  else r.importance

/-- Modelled from the spec: the scoring engine's decay formula over the
reals, `importance(t) = importance(0) * exp (-decay_rate * elapsed)`. -/
noncomputable def decayedImportance (rate i0 t : ℝ) : ℝ :=
  i0 * Real.exp (-(rate * t))

/-- Modelled from the spec: decay can be globally disabled, in which case
records retain their initial importance indefinitely. -/
noncomputable def decay (enableDecay : Bool) (rate i0 t : ℝ) : ℝ :=
  if enableDecay then decayedImportance rate i0 t else i0

/-- Lexicographic "comes no later than" order on (primary, secondary,
tertiary) sort keys, used by candidate selection and recall ranking. -/
def lexLE (x y : ℚ × ℚ × Nat) : Prop :=
  x.1 < y.1 ∨ (x.1 = y.1 ∧ (x.2.1 < y.2.1 ∨ (x.2.1 = y.2.1 ∧ x.2.2 ≤ y.2.2)))

instance (x y : ℚ × ℚ × Nat) : Decidable (lexLE x y) := by
  unfold lexLE
  infer_instance

def countWorking (l : List MemoryRecord) : Nat :=
  (l.filter fun r => decide (r.tier = Tier.working)).length

/-- The FIFO-oldest working-tier record: the first one in insertion
order. -/
def firstWorking (l : List MemoryRecord) : Option MemoryRecord :=
  l.find? fun r => decide (r.tier = Tier.working)

/-- Modelled from the spec: working-tier overflow handling — the oldest
working record is deleted, unless its computed importance exceeds the
promote-on-evict threshold, in which case it moves to the episodic tier
instead of being deleted. -/
def evictOldest (cfg : Config) : List MemoryRecord → List MemoryRecord
  | [] => []
  | r :: rs =>
    if r.tier = Tier.working then
      if cfg.promoteOnEvict < r.importance then
        { r with tier := Tier.episodic } :: rs
      else rs
    else r :: evictOldest cfg rs

def mkRecord (s : Store) (sid content category : String)
    (md : List (String × String)) (imp : ℚ) (tier : Tier) : MemoryRecord :=
  { id := s.nextId
    sessionId := sid
    content := content
    category := category
    importance := imp
    tier := tier
    createdAt := s.clock
    updatedAt := s.clock
    metadata := md }

/-- Insert a freshly created record at the working tier and enforce the
fixed capacity: when the insertion exceeds the capacity, exactly one
record — the FIFO-oldest working record — is evicted or promoted. -/
def insertWorking (cfg : Config) (s : Store) (r : MemoryRecord) : Store :=
  let recs := s.records ++ [r]
  { records := if cfg.workingCapacity < countWorking recs then evictOldest cfg recs else recs
    nextId := s.nextId + 1
    clock := s.clock + 1 }

/-- Validation of an optional explicit importance: it must lie in [0,1]. -/
def impOk : Option ℚ → Bool
  | none => true
  | some i => decide (0 ≤ i) && decide (i ≤ 1)

/-- Modelled from the spec:
`remember(session_id, content, category, metadata, importance)`.
An empty session id is a ValidationError; an explicit importance outside
[0,1] is a ValidationError; an explicit importance at or above the
wisdom consolidation threshold routes the record directly to the wisdom
tier; otherwise the record enters the working tier (with FIFO eviction
on overflow).  `sem` is the injected semantic-significance signal used
by the automatic score when no explicit importance is given. -/
def remember (cfg : Config) (sem : ℚ) (s : Store) (sid content category : String)
    (md : List (String × String)) (imp? : Option ℚ) :
    Except Err (MemoryRecord × Store) :=
  if sid = "" then .error .validation
  else if impOk imp? then
    match imp? with
    | some i =>
      if cfg.wisdomThreshold ≤ i then
        let r := mkRecord s sid content category md i Tier.wisdom
        .ok (r, { records := s.records ++ [r], nextId := s.nextId + 1, clock := s.clock + 1 })
      else
        let r := mkRecord s sid content category md i Tier.working
        .ok (r, insertWorking cfg s r)
    | none =>
      let r := mkRecord s sid content category md (autoScore sem category) Tier.working
      .ok (r, insertWorking cfg s r)
  else .error .validation

def updateFields (content? category? : Option String)
    (md? : Option (List (String × String))) (imp? : Option ℚ) (now : Nat)
    (r : MemoryRecord) : MemoryRecord :=
  { r with
    content := content?.getD r.content
    category := category?.getD r.category
    metadata := md?.getD r.metadata
    importance := imp?.getD r.importance
    updatedAt := now }

/-- Modelled from the spec:
`update(memory_id, content, category, metadata, importance)`.
An unknown id is a NotFoundError, an out-of-range explicit importance a
ValidationError; both are surfaced immediately. -/
def update (s : Store) (mid : Nat) (content? category? : Option String)
    (md? : Option (List (String × String))) (imp? : Option ℚ) :
    Except Err (MemoryRecord × Store) :=
  if impOk imp? then
    match s.records.find? (fun r => decide (r.id = mid)) with
    | some r =>
      .ok (updateFields content? category? md? imp? s.clock r,
        { records := s.records.map fun q =>
            if q.id = mid then updateFields content? category? md? imp? s.clock q else q
          nextId := s.nextId
          clock := s.clock + 1 })
    | none => .error .notFound
  else .error .validation

/-- Modelled from the spec: `forget(memory_id)` — explicit deletion of a
single record, the only removal path for wisdom-tier records. -/
def forget (s : Store) (mid : Nat) : Except Err Store :=
  if s.records.any (fun r => decide (r.id = mid)) then
    .ok { s with records := s.records.filter fun r => !(decide (r.id = mid)) }
  else .error .notFound

/-- Modelled from the spec: `forget_all(session_id, category)` — deletes
every matching record of the session and returns the count. -/
def forget_all (s : Store) (sid : String) (cat? : Option String) : Nat × Store :=
  let gone := s.records.filter fun r =>
    decide (r.sessionId = sid) && (match cat? with
      | none => true
      | some c => decide (r.category = c))
  (gone.length,
    { s with records := s.records.filter fun r =>
        !(decide (r.sessionId = sid) && (match cat? with
          | none => true
          | some c => decide (r.category = c))) })

/-- Modelled from the spec: `promote_candidates()` — episodic records
whose importance reaches the consolidation threshold move to the wisdom
tier. -/
def promote_candidates (cfg : Config) (s : Store) : Store :=
  { s with records := s.records.map fun r =>
      if r.tier = Tier.episodic ∧ cfg.wisdomThreshold ≤ r.importance
      then { r with tier := Tier.wisdom } else r }

/-- Modelled from the spec: the working tier's TTL sweep — expired
working records are evicted, or promoted to episodic when their
importance exceeds the promote-on-evict threshold. -/
def evictExpired (cfg : Config) (now : Nat) : List MemoryRecord → List MemoryRecord
  | [] => []
  | r :: rs =>
    if r.tier = Tier.working ∧ cfg.workingTTL < now - r.createdAt then
      if cfg.promoteOnEvict < r.importance then
        { r with tier := Tier.episodic } :: evictExpired cfg now rs
      else evictExpired cfg now rs
    else r :: evictExpired cfg now rs

/-- Modelled from the spec: `evict_due()`. -/
def evict_due (cfg : Config) (s : Store) : Store :=
  { s with records := evictExpired cfg s.clock s.records }

/-- Token count proxy of one record. -/
def tokensOf (r : MemoryRecord) : Nat := r.content.length

def tokenCount (s : Store) : Nat := (s.records.map tokensOf).sum

def episodicCount (s : Store) : Nat :=
  (s.records.filter fun r => decide (r.tier = Tier.episodic)).length

/-- Modelled from the spec: the compression trigger — token count above
the threshold fraction of the budget, OR episodic count above capacity,
OR the policy agent explicitly selected a compress action. -/
def should_compress (cfg : Config) (s : Store) (agentCompress : Bool) : Bool :=
  decide ((cfg.compressionThreshold * cfg.tokenBudget : ℚ) < (tokenCount s : ℚ))
    || decide (cfg.episodicCapacity < episodicCount s)
    || agentCompress

/-- Candidate ordering: ascending current importance, then ascending
recency (oldest first). -/
def candLE (cfg : Config) (dfac : Nat → ℚ) (now : Nat) (a b : MemoryRecord) : Prop :=
  lexLE (effImp cfg dfac now a, 0, a.createdAt) (effImp cfg dfac now b, 0, b.createdAt)

instance (cfg : Config) (dfac : Nat → ℚ) (now : Nat) :
    DecidableRel (candLE cfg dfac now) := by
  intro a b
  unfold candLE
  infer_instance

/-- Modelled from the spec: `select_candidates(store)` — episodic-tier
records only, excluding any record whose current importance exceeds the
protect-threshold, ranked by ascending importance then ascending
recency, capped at the configured batch size. -/
def select_candidates (cfg : Config) (dfac : Nat → ℚ) (now : Nat) (s : Store) :
    List MemoryRecord :=
  (List.insertionSort (candLE cfg dfac now)
    (s.records.filter fun r =>
      decide (r.tier = Tier.episodic) &&
      decide (effImp cfg dfac now r ≤ cfg.protectThreshold))).take cfg.batchSize

/-- The provenance union of the candidates' metadata. -/
def provenance : List MemoryRecord → List (String × String)
  | [] => []
  | c :: cs => c.metadata ++ provenance cs

/-- The maximum importance over a nonempty candidate batch `c :: cs`. -/
def maxImpOf (c : MemoryRecord) (cs : List MemoryRecord) : ℚ :=
  cs.foldl (fun m r => max m r.importance) c.importance

/-- Modelled from the spec: `compress(candidates)` — invoke the injected
summarization capability over the concatenated candidate contents; on
success replace the candidates with one representative record at the
episodic tier carrying the maximum input importance and the provenance
of every input; on failure change nothing (all-or-nothing per batch). -/
def compress (cfg : Config) (summarize : List String → Except Err String)
    (dfac : Nat → ℚ) (s : Store) : Except Err Store :=
  match select_candidates cfg dfac s.clock s with
  | [] => .ok s
  | c :: cs =>
    match summarize ((c :: cs).map fun r => r.content) with
    | .error _ => .error .capabilityUnavailable
    | .ok summary =>
      let rep : MemoryRecord :=
        { id := s.nextId
          sessionId := c.sessionId
          content := summary
          category := c.category
          importance := maxImpOf c cs
          tier := Tier.episodic
          createdAt := s.clock
          updatedAt := s.clock
          metadata := provenance (c :: cs) }
      .ok { records :=
              (s.records.filter fun r =>
                !((c :: cs).any fun q => decide (q.id = r.id))) ++ [rep]
            nextId := s.nextId + 1
            clock := s.clock + 1 }

/-- A recall result: a record together with its combined score. -/
structure ScoredRecord where
  entry : MemoryRecord
  score : ℚ
deriving DecidableEq

/-- Recall ranking: descending combined score; ties broken by higher
importance, then by more recent created-at. -/
def recallLE (a b : ScoredRecord) : Prop :=
  lexLE (b.score, b.entry.importance, b.entry.createdAt)
    (a.score, a.entry.importance, a.entry.createdAt)

instance : DecidableRel recallLE := by
  intro a b
  unfold recallLE
  infer_instance

def matchesCat (cat? : Option String) (r : MemoryRecord) : Bool :=
  match cat? with
  | none => true
  | some c => decide (r.category = c)

def inDateRange (after? before? : Option Nat) (r : MemoryRecord) : Bool :=
  (match after? with
    | none => true
    | some a => decide (a ≤ r.createdAt)) &&
  (match before? with
    | none => true
    | some b => decide (r.createdAt ≤ b))

/-- Modelled from the spec:
`recall(session_id, query, limit, category, min_score)` with an optional
date range — gather candidates from all three tiers of the session,
combine the injected similarity relevance with the (lazily decayed)
importance via the combiner `combine`, filter by the caller's minimum
score, category and date range, sort descending by combined score with
ties broken by importance then created-at, truncate to `limit`. -/
def recallOp (cfg : Config) (sim : String → String → ℚ) (combine : ℚ → ℚ → ℚ)
    (dfac : Nat → ℚ) (s : Store) (sid query : String) (limit : Nat)
    (cat? : Option String) (minScore : ℚ) (after? before? : Option Nat) :
    List ScoredRecord :=
  (List.insertionSort recallLE
    (((s.records.filter fun r =>
        decide (r.sessionId = sid) && matchesCat cat? r && inDateRange after? before? r).map
      fun r =>
        { entry := r
          score := combine (sim query r.content) (effImp cfg dfac s.clock r) }).filter
      fun x => decide (minScore ≤ x.score))).take limit

/-- Modelled from the spec:
`search(session_id, category, after, before, limit)` — unranked,
filtered, reverse-chronological by default. -/
def search (s : Store) (sid : String) (cat? : Option String)
    (after? before? : Option Nat) (limit : Nat) : List MemoryRecord :=
  ((s.records.filter fun r =>
      decide (r.sessionId = sid) && matchesCat cat? r && inDateRange after? before? r).reverse).take
    limit

/-- Modelled from the spec: the policy agent's actions. -/
inductive Action
  | wait
  | compressConservative
  | compressBalanced
  | compressAggressive
deriving DecidableEq

def isCompressAction : Action → Bool
  | Action.wait => false
  | _ => true

/-- Modelled from the spec: the discretized feature vector observed by
the policy agent. -/
structure AgentState where
  memBucket : Nat
  tokenBucket : Nat
  impBucket : Nat
  sinceCompressionBucket : Nat
deriving DecidableEq

/-- Modelled from the spec: the documented exploration schedule — about
0.30 for episodes below 10, about 0.15 up to episode 50, and the 0.05
floor from episode 50 on. -/
def epsilonOf (episodes : Nat) : ℚ :=
  if episodes < 10 then mkRat 3 10
  else if episodes < 50 then mkRat 15 100
  else mkRat 1 20

/-- Modelled from the spec: the policy agent's mutable state — elapsed
episodes and the learned Q-table keyed by (state, action). -/
structure Agent where
  episodes : Nat
  qtable : List ((AgentState × Action) × ℚ)
deriving DecidableEq

def epsilon (a : Agent) : ℚ := epsilonOf a.episodes

/-- On load, unseen (state, action) keys default to zero value. -/
def qLookup (qt : List ((AgentState × Action) × ℚ)) (k : AgentState × Action) : ℚ :=
  match qt.find? (fun e => decide (e.1 = k)) with
  | some e => e.2
  | none => 0

/-- Modelled from the spec: a Q-value write — replaces the entry when the
key is present, appends it otherwise; entries are never removed. -/
def qUpdate (qt : List ((AgentState × Action) × ℚ)) (k : AgentState × Action)
    (v : ℚ) : List ((AgentState × Action) × ℚ) :=
  if qt.any (fun e => decide (e.1 = k)) then
    qt.map fun e => if e.1 = k then (k, v) else e
  else qt ++ [(k, v)]

def maxQ (qt : List ((AgentState × Action) × ℚ)) (st : AgentState) : ℚ :=
  max (max (qLookup qt (st, Action.wait)) (qLookup qt (st, Action.compressConservative)))
    (max (qLookup qt (st, Action.compressBalanced)) (qLookup qt (st, Action.compressAggressive)))

/-- Modelled from the spec: the standard Q-learning update rule. -/
def qLearnValue (lr disc old reward maxNext : ℚ) : ℚ :=
  old + lr * (reward + disc * maxNext - old)

/-- One learning step: write the updated value for the (previous state,
action) pair and advance the episode count. -/
def agentLearn (lr disc : ℚ) (a : Agent) (st : AgentState) (act : Action)
    (reward : ℚ) (st2 : AgentState) : Agent :=
  { episodes := a.episodes + 1
    qtable := qUpdate a.qtable (st, act)
      (qLearnValue lr disc (qLookup a.qtable (st, act)) reward (maxQ a.qtable st2)) }

/-- Modelled from the spec: explicit reset, the only way entries leave
the table and epsilon returns to its initial value. -/
def resetAgent : Agent := { episodes := 0, qtable := [] }

/-- Modelled from the spec: the fixed reward profiles. -/
inductive RewardProfile
  | costFocused
  | qualityFocused
  | balanced
deriving DecidableEq

/-- (token-savings weight, quality-preservation weight). -/
def profileWeights : RewardProfile → ℚ × ℚ
  | RewardProfile.costFocused => (mkRat 8 10, mkRat 2 10)
  | RewardProfile.qualityFocused => (mkRat 2 10, mkRat 8 10)
  | RewardProfile.balanced => (mkRat 1 2, mkRat 1 2)

/-- Modelled from the spec: reward = weighted combination of the token
savings fraction and the quality-retention proxy. -/
def rewardOf (p : RewardProfile) (tokensBefore tokensAfter quality : ℚ) : ℚ :=
  (profileWeights p).1 * ((tokensBefore - tokensAfter) / tokensBefore)
    + (profileWeights p).2 * quality

/-- Modelled from the spec: the strongly negative reward assigned when a
chosen compression action fails. -/
def strongNegativeReward : ℚ := -1

/-- The action executed in one decision cycle together with the reward
assigned for it. -/
structure CycleOutcome where
  action : Action
  reward : ℚ
deriving DecidableEq

/-- Modelled from the spec: one full `remember` cycle of the facade —
store the record, then (when the agent chose a compress action) delegate
to the compression engine; if the injected capability fails the action
is treated as failed, receives the strongly negative reward and falls
back to `wait` for the cycle, with the post-insert store kept intact and
the caller's `remember` still completing successfully. -/
def rememberCycle (cfg : Config) (summarize : List String → Except Err String)
    (dfac : Nat → ℚ) (profile : RewardProfile) (quality : ℚ) (chosen : Action)
    (sem : ℚ) (s : Store) (sid content category : String)
    (md : List (String × String)) (imp? : Option ℚ) :
    Except Err (MemoryRecord × Store × CycleOutcome) :=
  match remember cfg sem s sid content category md imp? with
  | .error e => .error e
  | .ok (r, s1) =>
    if isCompressAction chosen then
      match compress cfg summarize dfac s1 with
      | .ok s2 =>
        .ok (r, s2,
          { action := chosen
            reward := rewardOf profile (tokenCount s1 : ℚ) (tokenCount s2 : ℚ) quality })
      | .error _ =>
        .ok (r, s1, { action := Action.wait, reward := strongNegativeReward })
    else .ok (r, s1, { action := Action.wait, reward := 0 })

/-- The operations of the facade and the maintenance passes, as a single
step alphabet for reachability reasoning. -/
inductive Op
  | opRemember (sem : ℚ) (sid content category : String)
      (md : List (String × String)) (imp? : Option ℚ)
  | opUpdate (mid : Nat) (content? category? : Option String)
      (md? : Option (List (String × String))) (imp? : Option ℚ)
  | opForget (mid : Nat)
  | opForgetAll (sid : String) (cat? : Option String)
  | opPromote
  | opEvictDue
  | opCompress (summarize : List String → Except Err String) (dfac : Nat → ℚ)

/-- Fallible operations leave the store unchanged when they surface an
error. -/
def applyOp (cfg : Config) (s : Store) : Op → Store
  | Op.opRemember sem sid c cat md i? =>
    match remember cfg sem s sid c cat md i? with
    | .ok (_, s2) => s2
    | .error _ => s
  | Op.opUpdate mid c? cat? md? i? =>
    match update s mid c? cat? md? i? with
    | .ok (_, s2) => s2
    | .error _ => s
  | Op.opForget mid =>
    match forget s mid with
    | .ok s2 => s2
    | .error _ => s
  | Op.opForgetAll sid cat? => (forget_all s sid cat?).2
  | Op.opPromote => promote_candidates cfg s
  | Op.opEvictDue => evict_due cfg s
  | Op.opCompress summarize dfac =>
    match compress cfg summarize dfac s with
    | .ok s2 => s2
    | .error _ => s

def applyOps (cfg : Config) (s : Store) : List Op → Store
  | [] => s
  | op :: ops => applyOps cfg (applyOp cfg s op) ops

/-- An operation that writes an explicit importance value (the one way a
caller can lower a record's importance by hand). -/
def Op.setsImportance : Op → Bool
  | Op.opUpdate _ _ _ _ (some _) => true
  | _ => false

/-- The importance range invariant: every stored importance lies in
[0,1]. -/
def ImpInv (s : Store) : Prop :=
  ∀ r ∈ s.records, 0 ≤ r.importance ∧ r.importance ≤ 1

instance : IsTotal (ℚ × ℚ × Nat) lexLE :=
  ⟨by
    intro x y
    unfold lexLE
    rcases lt_trichotomy x.1 y.1 with h | h | h
    · exact Or.inl (Or.inl h)
    · rcases lt_trichotomy x.2.1 y.2.1 with h2 | h2 | h2
      · exact Or.inl (Or.inr ⟨h, Or.inl h2⟩)
      · rcases Nat.le_total x.2.2 y.2.2 with h3 | h3
        · exact Or.inl (Or.inr ⟨h, Or.inr ⟨h2, h3⟩⟩)
        · exact Or.inr (Or.inr ⟨h.symm, Or.inr ⟨h2.symm, h3⟩⟩)
      · exact Or.inr (Or.inr ⟨h.symm, Or.inl h2⟩)
    · exact Or.inr (Or.inl h)⟩

instance : IsTrans (ℚ × ℚ × Nat) lexLE :=
  ⟨by
    intro x y z hxy hyz
    unfold lexLE at hxy hyz ⊢
    rcases hxy with h1 | ⟨e1, h1⟩
    · rcases hyz with h2 | ⟨e2, h2⟩
      · exact Or.inl (h1.trans h2)
      · exact Or.inl (e2 ▸ h1)
    · rcases hyz with h2 | ⟨e2, h2⟩
      · exact Or.inl (e1.symm ▸ h2)
      · refine Or.inr ⟨e1.trans e2, ?_⟩
        rcases h1 with h1 | ⟨f1, h1⟩
        · rcases h2 with h2 | ⟨f2, h2⟩
          · exact Or.inl (h1.trans h2)
          · exact Or.inl (f2 ▸ h1)
        · rcases h2 with h2 | ⟨f2, h2⟩
          · exact Or.inl (f1.symm ▸ h2)
          · exact Or.inr ⟨f1.trans f2, h1.trans h2⟩⟩

instance (cfg : Config) (dfac : Nat → ℚ) (now : Nat) :
    IsTotal MemoryRecord (candLE cfg dfac now) :=
  ⟨fun _ _ => IsTotal.total (r := lexLE) _ _⟩

instance (cfg : Config) (dfac : Nat → ℚ) (now : Nat) :
    IsTrans MemoryRecord (candLE cfg dfac now) :=
  ⟨fun _ _ _ hab hbc => IsTrans.trans (r := lexLE) _ _ _ hab hbc⟩

instance : IsTotal ScoredRecord recallLE :=
  ⟨fun _ _ => (IsTotal.total (r := lexLE) _ _).symm⟩

instance : IsTrans ScoredRecord recallLE :=
  ⟨fun _ _ _ hab hbc => IsTrans.trans (r := lexLE) _ _ _ hbc hab⟩

/-- Structural well-formedness of a store: record ids are strictly
increasing along the list (hence pairwise distinct) and below `nextId`. -/
def StoreWF (s : Store) : Prop :=
  s.records.Pairwise (fun a b => a.id < b.id) ∧ ∀ r ∈ s.records, r.id < s.nextId

/-- A decay-factor stub used by concrete examples: the identity factor
(no elapsed decay). -/
def dfacOne : Nat → ℚ := fun _ => 1

/-- A sample low-importance episodic record for concrete evaluations. -/
def recEp : MemoryRecord :=
  { id := 0
    sessionId := "u"
    content := "b"
    category := "general"
    importance := mkRat 1 10
    tier := Tier.episodic
    createdAt := 0
    updatedAt := 0
    metadata := [] }

/-- A sample wisdom-tier record for concrete evaluations. -/
def recWis : MemoryRecord :=
  { id := 1
    sessionId := "u"
    content := "w"
    category := "fact"
    importance := mkRat 95 100
    tier := Tier.wisdom
    createdAt := 1
    updatedAt := 1
    metadata := [] }

/-- A sample store holding one episodic and one wisdom record. -/
def sTwo : Store := { records := [recEp, recWis], nextId := 2, clock := 2 }

/-- The default configuration with decay disabled, used by concrete
evaluations. -/
def cfgW : Config := { defaultConfig with enableDecay := false }

/-- The representative produced by compressing `sTwo` under `cfgW`. -/
def repC2 : MemoryRecord :=
  { id := 2
    sessionId := "u"
    content := "s"
    category := "general"
    importance := mkRat 1 10
    tier := Tier.episodic
    createdAt := 2
    updatedAt := 2
    metadata := [] }

/-- The store obtained by compressing `sTwo` under `cfgW`. -/
def sCmp : Store := { records := [recWis, repC2], nextId := 3, clock := 3 }

/-- A one-operation history: remember a maximal-importance record. -/
def opsC1 : List Op := [Op.opRemember 0 "u" "a" "general" [] (some 1)]

/-- The wisdom record produced by `opsC1`. -/
def recW1 : MemoryRecord :=
  { id := 0
    sessionId := "u"
    content := "a"
    category := "general"
    importance := 1
    tier := Tier.wisdom
    createdAt := 0
    updatedAt := 0
    metadata := [] }

/-- A one-operation history: remember a 0.95-importance record. -/
def ops95 : List Op := [Op.opRemember 0 "u" "w" "fact" [] (some (mkRat 95 100))]

/-- The wisdom record produced by `ops95`. -/
def rec95 : MemoryRecord :=
  { id := 0
    sessionId := "u"
    content := "w"
    category := "fact"
    importance := mkRat 95 100
    tier := Tier.wisdom
    createdAt := 0
    updatedAt := 0
    metadata := [] }

/-- An update writing an explicit lower importance onto record 0. -/
def opUpd95 : Op := Op.opUpdate 0 none none none (some (mkRat 1 2))

/-- `rec95` after `opUpd95`. -/
def recUpd95 : MemoryRecord :=
  { id := 0
    sessionId := "u"
    content := "w"
    category := "fact"
    importance := mkRat 1 2
    tier := Tier.wisdom
    createdAt := 0
    updatedAt := 1
    metadata := [] }

/-- A capacity-2 decay-disabled configuration for the eviction example. -/
def cfg4 : Config := { cfgW with workingCapacity := 2 }

/-- Two low-importance working records. -/
def w0C4 : MemoryRecord :=
  { id := 0
    sessionId := "u"
    content := "a"
    category := "general"
    importance := mkRat 1 10
    tier := Tier.working
    createdAt := 0
    updatedAt := 0
    metadata := [] }

def w1C4 : MemoryRecord :=
  { id := 1
    sessionId := "u"
    content := "b"
    category := "general"
    importance := mkRat 2 10
    tier := Tier.working
    createdAt := 1
    updatedAt := 1
    metadata := [] }

/-- A full working tier at capacity 2. -/
def s4 : Store := { records := [w0C4, w1C4], nextId := 2, clock := 2 }

/-- The record created by remembering a third item into `s4`. -/
def rNew4 : MemoryRecord :=
  { id := 2
    sessionId := "u"
    content := "c"
    category := "general"
    importance := mkRat 1 10
    tier := Tier.working
    createdAt := 2
    updatedAt := 2
    metadata := [] }

/-- `s4` after that remember: the oldest working record was evicted. -/
def sAfter4 : Store := { records := [w1C4, rNew4], nextId := 3, clock := 3 }

/-- A record of a different session, for isolation examples. -/
def recV : MemoryRecord :=
  { id := 5
    sessionId := "v"
    content := "z"
    category := "general"
    importance := mkRat 3 10
    tier := Tier.episodic
    createdAt := 2
    updatedAt := 2
    metadata := [] }

/-- A store holding records of two sessions. -/
def sTen : Store := { records := [recEp, recWis, recV], nextId := 6, clock := 3 }

/-- `sTen` after forgetting record 1 (the wisdom record). -/
def sF10 : Store := { records := [recEp, recV], nextId := 6, clock := 3 }

/-- A concrete similarity capability for the examples: exact match of
the query scores highest, the distractor content "b" scores 0.9. -/
def simC9 : String → String → ℚ :=
  fun _ c => if c = "a" then 1 else if c = "b" then mkRat 9 10 else mkRat 1 2

/-- A concrete combined-score function: the minimum of relevance and
importance. -/
def combineMin : ℚ → ℚ → ℚ := fun rel imp => min rel imp

/-- A high-importance episodic record whose content is "b". -/
def recB9 : MemoryRecord :=
  { id := 0
    sessionId := "u"
    content := "b"
    category := "general"
    importance := mkRat 99 100
    tier := Tier.episodic
    createdAt := 0
    updatedAt := 0
    metadata := [] }

/-- A store already holding `recB9`. -/
def sC9 : Store := { records := [recB9], nextId := 1, clock := 1 }

/-- The low-importance record remembered into `sC9` with content "a". -/
def recA9 : MemoryRecord :=
  { id := 1
    sessionId := "u"
    content := "a"
    category := "general"
    importance := mkRat 1 10
    tier := Tier.working
    createdAt := 1
    updatedAt := 1
    metadata := [] }

/-- `sC9` right after remembering `recA9`. -/
def s9 : Store := { records := [recB9, recA9], nextId := 2, clock := 2 }

/-- The record remembered into `sTwo` by the C7 example. -/
def r7 : MemoryRecord :=
  { id := 2
    sessionId := "u"
    content := "c"
    category := "general"
    importance := mkRat 1 10
    tier := Tier.working
    createdAt := 2
    updatedAt := 2
    metadata := [] }

/-- `sTwo` right after remembering `r7`. -/
def s7 : Store := { records := [recEp, recWis, r7], nextId := 3, clock := 3 }

/-- A concrete discretized agent state. -/
def st0 : AgentState :=
  { memBucket := 0
    tokenBucket := 0
    impBucket := 0
    sinceCompressionBucket := 0 }

end Vidurai

namespace Vidurai

theorem clamp01_mem (x : ℚ) : 0 ≤ clamp01 x ∧ clamp01 x ≤ 1 :=
  ⟨le_max_left 0 _, max_le (by norm_num) (min_le_left 1 x)⟩

theorem autoScore_mem (sem : ℚ) (c : String) :
    0 ≤ autoScore sem c ∧ autoScore sem c ≤ 1 :=
  clamp01_mem _

/-- The exponential decay factor always lies in (0, 1] for nonnegative
rate and elapsed time: the real curve satisfies every bound the store
imposes on its injected rational factor function. -/
theorem decayFactor_bounds (rate t : ℝ) (hr : 0 ≤ rate) (ht : 0 ≤ t) :
    0 < Real.exp (-(rate * t)) ∧ Real.exp (-(rate * t)) ≤ 1 :=
  ⟨Real.exp_pos _, Real.exp_le_one_iff.mpr (neg_nonpos.mpr (mul_nonneg hr ht))⟩

theorem le_foldl_max (l : List MemoryRecord) (init : ℚ) :
    init ≤ l.foldl (fun m r => max m r.importance) init := by
  induction l generalizing init with
  | nil => exact le_refl _
  | cons r rs ih =>
    simp only [List.foldl_cons]
    exact le_trans (le_max_left _ _) (ih (max init r.importance))

theorem mem_le_foldl_max {q : MemoryRecord} {l : List MemoryRecord} (h : q ∈ l)
    (init : ℚ) : q.importance ≤ l.foldl (fun m r => max m r.importance) init := by
  induction l generalizing init with
  | nil => cases h
  | cons r rs ih =>
    simp only [List.foldl_cons]
    rcases List.mem_cons.mp h with rfl | h2
    · exact le_trans (le_max_right _ _) (le_foldl_max rs _)
    · exact ih h2 _

theorem foldl_max_attained (l : List MemoryRecord) (init : ℚ) :
    l.foldl (fun m r => max m r.importance) init = init ∨
      ∃ q ∈ l, l.foldl (fun m r => max m r.importance) init = q.importance := by
  induction l generalizing init with
  | nil => exact Or.inl rfl
  | cons r rs ih =>
    simp only [List.foldl_cons]
    rcases ih (max init r.importance) with h | ⟨q, hq, he⟩
    · rcases max_choice init r.importance with hm | hm
      · exact Or.inl (h.trans hm)
      · exact Or.inr ⟨r, List.mem_cons_self _ _, h.trans hm⟩
    · exact Or.inr ⟨q, List.mem_cons_of_mem _ hq, he⟩

theorem maxImpOf_ge {c q : MemoryRecord} {cs : List MemoryRecord}
    (h : q ∈ c :: cs) : q.importance ≤ maxImpOf c cs := by
  rcases List.mem_cons.mp h with rfl | h2
  · exact le_foldl_max cs q.importance
  · exact mem_le_foldl_max h2 _

theorem maxImpOf_attained (c : MemoryRecord) (cs : List MemoryRecord) :
    ∃ q ∈ c :: cs, maxImpOf c cs = q.importance := by
  rcases foldl_max_attained cs c.importance with h | ⟨q, hq, he⟩
  · exact ⟨c, List.mem_cons_self _ _, h⟩
  · exact ⟨q, List.mem_cons_of_mem _ hq, he⟩

theorem provenance_mem {q : MemoryRecord} {l : List MemoryRecord} (hq : q ∈ l) :
    ∀ m ∈ q.metadata, m ∈ provenance l := by
  induction l with
  | nil => cases hq
  | cons c cs ih =>
    intro m hm
    unfold provenance
    rcases List.mem_cons.mp hq with rfl | h2
    · exact List.mem_append_left _ hm
    · exact List.mem_append_right _ (ih h2 m hm)

/-- Two records of an id-sorted list with the same id are the same
record. -/
theorem pairwise_id_eq {l : List MemoryRecord}
    (hp : l.Pairwise fun a b => a.id < b.id) {p q : MemoryRecord}
    (hpl : p ∈ l) (hql : q ∈ l) (hid : p.id = q.id) : p = q := by
  by_contra hne
  have hne' : l.Pairwise fun a b : MemoryRecord => a.id ≠ b.id :=
    hp.imp fun hlt => Nat.ne_of_lt hlt
  have hsym : Symmetric fun a b : MemoryRecord => a.id ≠ b.id :=
    fun _ _ h e => h e.symm
  exact hne'.forall hsym hpl hql hne hid

/-- Everything `select_candidates` returns comes from the store's
episodic tier with current importance at or below the
protect-threshold. -/
theorem mem_select_candidates {cfg : Config} {dfac : Nat → ℚ} {now : Nat}
    {s : Store} {r : MemoryRecord} (h : r ∈ select_candidates cfg dfac now s) :
    r ∈ s.records ∧ r.tier = Tier.episodic ∧
      effImp cfg dfac now r ≤ cfg.protectThreshold := by
  unfold select_candidates at h
  have h1 := List.mem_of_mem_take h
  have h2 := (List.perm_insertionSort _ _).mem_iff.mp h1
  have h3 := List.mem_filter.mp h2
  refine ⟨h3.1, ?_, ?_⟩
  · have := h3.2
    simp only [Bool.and_eq_true, decide_eq_true_eq] at this
    exact this.1
  · have := h3.2
    simp only [Bool.and_eq_true, decide_eq_true_eq] at this
    exact this.2

/-- A successful compression run keeps every record outside its
candidate batch untouched; in particular every wisdom-tier record and
every record above the protect-threshold at selection time. -/
theorem compress_keeps_protected {cfg : Config}
    {summarize : List String → Except Err String} {dfac : Nat → ℚ}
    {s s2 : Store} (hpw : s.records.Pairwise fun a b => a.id < b.id)
    (hok : compress cfg summarize dfac s = Except.ok s2)
    {r : MemoryRecord} (hr : r ∈ s.records)
    (hprot : r.tier = Tier.wisdom ∨
      cfg.protectThreshold < effImp cfg dfac s.clock r) :
    r ∈ s2.records := by
  unfold compress at hok
  rcases hsel : select_candidates cfg dfac s.clock s with _ | ⟨c, cs⟩
  · simp only [hsel, Except.ok.injEq] at hok
    rw [← hok]
    exact hr
  · simp only [hsel] at hok
    rcases hsum : summarize ((c :: cs).map fun r => r.content) with e | summary
    · simp only [hsum] at hok
      cases hok
    · simp only [hsum, Except.ok.injEq] at hok
      rw [← hok]
      refine List.mem_append_left _ (List.mem_filter.mpr ⟨hr, ?_⟩)
      simp only [Bool.not_eq_eq_eq_not, Bool.not_true, List.any_eq_false,
        decide_eq_true_eq]
      intro q hq hid
      have hq2 : q ∈ select_candidates cfg dfac s.clock s := by
        rw [hsel]
        exact hq
      obtain ⟨hqs, hqt, hqi⟩ := mem_select_candidates hq2
      have hqr : q = r := pairwise_id_eq hpw hqs hr hid
      rcases hprot with hw | hhigh
      · rw [hqr, hw] at hqt
        cases hqt
      · rw [hqr] at hqi
        exact absurd hqi (not_le.mpr hhigh)

/-- Claim C2: the compression engine's candidate selection is disjoint
from the wisdom tier and never contains a record whose importance at
selection time exceeds the protect-threshold; consequently a successful
compression run keeps every wisdom-tier or protected record in the
store untouched. -/
theorem claim_C2 (cfg : Config) (dfac : Nat → ℚ) (now : Nat) (s : Store) :
    (∀ r ∈ select_candidates cfg dfac now s,
      r.tier ≠ Tier.wisdom ∧ r.tier = Tier.episodic ∧
        effImp cfg dfac now r ≤ cfg.protectThreshold) ∧
    ∀ (summarize : List String → Except Err String) (s2 : Store),
      s.records.Pairwise (fun a b => a.id < b.id) →
      compress cfg summarize dfac s = Except.ok s2 →
      ∀ r ∈ s.records,
        (r.tier = Tier.wisdom ∨ cfg.protectThreshold < effImp cfg dfac s.clock r) →
        r ∈ s2.records := by
  constructor
  · intro r hr
    obtain ⟨_, ht, hi⟩ := mem_select_candidates hr
    refine ⟨?_, ht, hi⟩
    rw [ht]
    intro hcontra
    cases hcontra
  · intro summarize s2 hpw hok r hr hprot
    exact compress_keeps_protected hpw hok hr hprot

/-- Witness for C2 at a concrete store: the sample episodic record is
selected and satisfies the guarantees, and the wisdom record survives a
concrete successful compression run. -/
theorem claim_C2_witness :
    (recEp ∈ select_candidates cfgW dfacOne 0 sTwo ∧
      recEp.tier ≠ Tier.wisdom ∧ recEp.tier = Tier.episodic ∧
        effImp cfgW dfacOne 0 recEp ≤ cfgW.protectThreshold) ∧
    (compress cfgW (fun _ => Except.ok "s") dfacOne sTwo = Except.ok sCmp ∧
      recWis ∈ sTwo.records ∧ recWis.tier = Tier.wisdom ∧
      recWis ∈ sCmp.records) := by
  have hc : compress cfgW (fun _ => Except.ok "s") dfacOne sTwo = Except.ok sCmp := by
    rfl
  refine ⟨⟨by decide, (claim_C2 cfgW dfacOne 0 sTwo).1 recEp (by decide)⟩,
    hc, by decide, by decide, ?_⟩
  exact (claim_C2 cfgW dfacOne 0 sTwo).2 (fun _ => Except.ok "s") sCmp
    (by decide) hc recWis (by decide) (Or.inl (by decide))

/-- Claim C3: the decay operation returns exactly
`i0 * exp (-decay_rate * t)`; it is antitone in elapsed time for a
positive rate and a nonnegative initial importance, and when decay is
globally disabled the record retains its initial importance. -/
theorem claim_C3 (i0 rate t t1 t2 : ℝ) :
    (0 < rate → rate < 1 → 0 ≤ t →
      decay true rate i0 t = i0 * Real.exp (-(rate * t))) ∧
    (0 ≤ i0 → 0 < rate → 0 ≤ t1 → t1 ≤ t2 →
      decay true rate i0 t2 ≤ decay true rate i0 t1) ∧
    decay false rate i0 t = i0 := by
  refine ⟨fun _ _ _ => rfl, ?_, rfl⟩
  intro hi hr _ h12
  show decayedImportance rate i0 t2 ≤ decayedImportance rate i0 t1
  unfold decayedImportance
  refine mul_le_mul_of_nonneg_left ?_ hi
  exact Real.exp_le_exp.mpr (neg_le_neg (mul_le_mul_of_nonneg_left h12 hr.le))

/-- When the list holds no working-tier record, the overflow eviction is
the identity. -/
theorem evictOldest_of_none (cfg : Config) {l : List MemoryRecord}
    (h : firstWorking l = none) : evictOldest cfg l = l := by
  induction l with
  | nil => rfl
  | cons r rs ih =>
    unfold firstWorking at h
    have hr : ¬r.tier = Tier.working := by
      intro hw
      rw [List.find?_cons_of_pos _ (by simpa using hw)] at h
      cases h
    rw [List.find?_cons_of_neg _ (by simpa using hr)] at h
    unfold evictOldest
    rw [if_neg hr, ih h]

/-- The exact shape of the overflow eviction: the list splits around its
first working record `o`, which is retagged to episodic when its
importance exceeds the promote-on-evict threshold and dropped
otherwise; everything else is untouched. -/
theorem evictOldest_decomp (cfg : Config) {l : List MemoryRecord}
    {o : MemoryRecord} (h : firstWorking l = some o) :
    ∃ l1 l2, l = l1 ++ o :: l2 ∧ (∀ x ∈ l1, x.tier ≠ Tier.working) ∧
      evictOldest cfg l = l1 ++
        (if cfg.promoteOnEvict < o.importance
          then [{ o with tier := Tier.episodic }] else []) ++ l2 := by
  induction l with
  | nil => cases h
  | cons r rs ih =>
    unfold firstWorking at h
    by_cases hw : r.tier = Tier.working
    · rw [List.find?_cons_of_pos _ (by simpa using hw)] at h
      injection h with h
      subst h
      refine ⟨[], rs, rfl, by simp, ?_⟩
      unfold evictOldest
      rw [if_pos hw]
      by_cases hp : cfg.promoteOnEvict < r.importance
      · rw [if_pos hp, if_pos hp]
        rfl
      · rw [if_neg hp, if_neg hp]
        rfl
    · rw [List.find?_cons_of_neg _ (by simpa using hw)] at h
      have h' : firstWorking rs = some o := h
      obtain ⟨l1, l2, he, hnw, hev⟩ := ih h'
      refine ⟨r :: l1, l2, by rw [List.cons_append, ← he], ?_, ?_⟩
      · intro x hx
        rcases List.mem_cons.mp hx with rfl | hx2
        · exact hw
        · exact hnw x hx2
      · unfold evictOldest
        rw [if_neg hw, hev]
        rfl

/-- Every record surviving the overflow eviction is an original record
or the retagged copy of an original working record. -/
theorem mem_evictOldest_origin (cfg : Config) {l : List MemoryRecord}
    {q : MemoryRecord} (hq : q ∈ evictOldest cfg l) :
    q ∈ l ∨ ∃ p ∈ l, p.tier = Tier.working ∧ q = { p with tier := Tier.episodic } := by
  rcases hfw : firstWorking l with _ | o
  · rw [evictOldest_of_none cfg hfw] at hq
    exact Or.inl hq
  · obtain ⟨l1, l2, he, _, hev⟩ := evictOldest_decomp cfg hfw
    rw [hev] at hq
    rcases List.mem_append.mp hq with hq1 | hq2
    · rcases List.mem_append.mp hq1 with hql | hqm
      · exact Or.inl (he ▸ List.mem_append_left _ hql)
      · by_cases hp : cfg.promoteOnEvict < o.importance
        · rw [if_pos hp] at hqm
          have ho : o ∈ l := he ▸ List.mem_append_right _ (List.mem_cons_self _ _)
          have how : o.tier = Tier.working := by
            have := List.find?_some hfw
            simpa using this
          rcases List.mem_cons.mp hqm with rfl | hempty
          · exact Or.inr ⟨o, ho, how, rfl⟩
          · cases hempty
        · rw [if_neg hp] at hqm
          cases hqm
    · exact Or.inl (he ▸ List.mem_append_right _ (List.mem_cons_of_mem _ hq2))

/-- Non-working records are untouched by the overflow eviction. -/
theorem evictOldest_keeps_nonworking (cfg : Config) {l : List MemoryRecord}
    {q : MemoryRecord} (hq : q ∈ l) (hnw : q.tier ≠ Tier.working) :
    q ∈ evictOldest cfg l := by
  rcases hfw : firstWorking l with _ | o
  · rw [evictOldest_of_none cfg hfw]
    exact hq
  · obtain ⟨l1, l2, he, _, hev⟩ := evictOldest_decomp cfg hfw
    have how : o.tier = Tier.working := by
      have := List.find?_some hfw
      simpa using this
    rw [hev]
    subst he
    rcases List.mem_append.mp hq with hq1 | hq2
    · exact List.mem_append_left _ (List.mem_append_left _ hq1)
    · rcases List.mem_cons.mp hq2 with rfl | hq3
      · exact absurd how hnw
      · exact List.mem_append_right _ hq3

theorem countWorking_append (a b : List MemoryRecord) :
    countWorking (a ++ b) = countWorking a + countWorking b := by
  unfold countWorking
  rw [List.filter_append, List.length_append]

theorem countWorking_cons_working {r : MemoryRecord} (l : List MemoryRecord)
    (h : r.tier = Tier.working) : countWorking (r :: l) = countWorking l + 1 := by
  unfold countWorking
  rw [List.filter_cons, if_pos (by simpa using h)]
  rfl

theorem countWorking_cons_non {r : MemoryRecord} (l : List MemoryRecord)
    (h : r.tier ≠ Tier.working) : countWorking (r :: l) = countWorking l := by
  unfold countWorking
  rw [List.filter_cons, if_neg (by simpa using h)]

theorem countWorking_eq_zero {l : List MemoryRecord}
    (h : ∀ x ∈ l, x.tier ≠ Tier.working) : countWorking l = 0 := by
  unfold countWorking
  rw [List.filter_eq_nil_iff.mpr fun a ha => by simpa using h a ha]
  rfl

/-- The overflow eviction removes exactly one working record. -/
theorem countWorking_evictOldest (cfg : Config) {l : List MemoryRecord}
    {o : MemoryRecord} (h : firstWorking l = some o) :
    countWorking (evictOldest cfg l) + 1 = countWorking l := by
  obtain ⟨l1, l2, he, hnw, hev⟩ := evictOldest_decomp cfg h
  have how : o.tier = Tier.working := by
    have := List.find?_some h
    simpa using this
  have hl1 : countWorking l1 = 0 := countWorking_eq_zero hnw
  have hmid : countWorking
      (if cfg.promoteOnEvict < o.importance
        then [{ o with tier := Tier.episodic }] else []) = 0 := by
    by_cases hp : cfg.promoteOnEvict < o.importance
    · rw [if_pos hp]
      exact countWorking_eq_zero fun x hx => by
        rcases List.mem_cons.mp hx with rfl | hx2
        · intro hcontra
          cases hcontra
        · cases hx2
    · rw [if_neg hp]
      rfl
  rw [hev, he, countWorking_append, countWorking_append, countWorking_append,
    countWorking_cons_working _ how, hl1, hmid]
  omega

/-- The overflow eviction never invents a new id: the id list of the
result is a sublist of the original id list. -/
theorem evictOldest_ids_sublist (cfg : Config) (l : List MemoryRecord) :
    ((evictOldest cfg l).map fun r => r.id).Sublist (l.map fun r => r.id) := by
  rcases hfw : firstWorking l with _ | o
  · rw [evictOldest_of_none cfg hfw]
  · obtain ⟨l1, l2, he, _, hev⟩ := evictOldest_decomp cfg hfw
    rw [hev, he]
    simp only [List.map_append, List.append_assoc]
    rw [List.append_sublist_append_left]
    by_cases hp : cfg.promoteOnEvict < o.importance
    · rw [if_pos hp]
      simp
    · rw [if_neg hp]
      simp only [List.map_nil, List.nil_append, List.map_cons]
      exact List.sublist_cons_self _ _

/-- Every record surviving the TTL sweep is an original record or the
retagged copy of an original working record. -/
theorem mem_evictExpired_origin (cfg : Config) (now : Nat)
    {l : List MemoryRecord} {q : MemoryRecord}
    (hq : q ∈ evictExpired cfg now l) :
    q ∈ l ∨ ∃ p ∈ l, p.tier = Tier.working ∧ q = { p with tier := Tier.episodic } := by
  induction l with
  | nil => cases hq
  | cons r rs ih =>
    unfold evictExpired at hq
    by_cases hc : r.tier = Tier.working ∧ cfg.workingTTL < now - r.createdAt
    · rw [if_pos hc] at hq
      by_cases hp : cfg.promoteOnEvict < r.importance
      · rw [if_pos hp] at hq
        rcases List.mem_cons.mp hq with rfl | hq2
        · exact Or.inr ⟨r, List.mem_cons_self _ _, hc.1, rfl⟩
        · rcases ih hq2 with h | ⟨p, hp2, hw, he⟩
          · exact Or.inl (List.mem_cons_of_mem _ h)
          · exact Or.inr ⟨p, List.mem_cons_of_mem _ hp2, hw, he⟩
      · rw [if_neg hp] at hq
        rcases ih hq with h | ⟨p, hp2, hw, he⟩
        · exact Or.inl (List.mem_cons_of_mem _ h)
        · exact Or.inr ⟨p, List.mem_cons_of_mem _ hp2, hw, he⟩
    · rw [if_neg hc] at hq
      rcases List.mem_cons.mp hq with rfl | hq2
      · exact Or.inl (List.mem_cons_self _ _)
      · rcases ih hq2 with h | ⟨p, hp2, hw, he⟩
        · exact Or.inl (List.mem_cons_of_mem _ h)
        · exact Or.inr ⟨p, List.mem_cons_of_mem _ hp2, hw, he⟩

/-- Non-working records are untouched by the TTL sweep. -/
theorem evictExpired_keeps_nonworking (cfg : Config) (now : Nat)
    {l : List MemoryRecord} {q : MemoryRecord} (hq : q ∈ l)
    (hnw : q.tier ≠ Tier.working) : q ∈ evictExpired cfg now l := by
  induction l with
  | nil => cases hq
  | cons r rs ih =>
    unfold evictExpired
    rcases List.mem_cons.mp hq with rfl | hq2
    · rw [if_neg fun hc => hnw hc.1]
      exact List.mem_cons_self _ _
    · by_cases hc : r.tier = Tier.working ∧ cfg.workingTTL < now - r.createdAt
      · rw [if_pos hc]
        by_cases hp : cfg.promoteOnEvict < r.importance
        · rw [if_pos hp]
          exact List.mem_cons_of_mem _ (ih hq2)
        · rw [if_neg hp]
          exact ih hq2
      · rw [if_neg hc]
        exact List.mem_cons_of_mem _ (ih hq2)

/-- The TTL sweep cannot increase the number of working records. -/
theorem countWorking_evictExpired (cfg : Config) (now : Nat)
    (l : List MemoryRecord) :
    countWorking (evictExpired cfg now l) ≤ countWorking l := by
  induction l with
  | nil => exact le_refl _
  | cons r rs ih =>
    unfold evictExpired
    by_cases hc : r.tier = Tier.working ∧ cfg.workingTTL < now - r.createdAt
    · rw [if_pos hc, countWorking_cons_working _ hc.1]
      by_cases hp : cfg.promoteOnEvict < r.importance
      · rw [if_pos hp, countWorking_cons_non _ (fun h => by cases h)]
        omega
      · rw [if_neg hp]
        omega
    · rw [if_neg hc]
      by_cases hw : r.tier = Tier.working
      · rw [countWorking_cons_working _ hw, countWorking_cons_working _ hw]
        omega
      · rw [countWorking_cons_non _ hw, countWorking_cons_non _ hw]
        exact ih

/-- The TTL sweep never invents a new id. -/
theorem evictExpired_ids_sublist (cfg : Config) (now : Nat)
    (l : List MemoryRecord) :
    ((evictExpired cfg now l).map fun r => r.id).Sublist (l.map fun r => r.id) := by
  induction l with
  | nil => exact List.Sublist.refl _
  | cons r rs ih =>
    unfold evictExpired
    by_cases hc : r.tier = Tier.working ∧ cfg.workingTTL < now - r.createdAt
    · rw [if_pos hc]
      by_cases hp : cfg.promoteOnEvict < r.importance
      · rw [if_pos hp]
        simp only [List.map_cons]
        exact List.Sublist.cons₂ _ ih
      · rw [if_neg hp]
        simp only [List.map_cons]
        exact List.Sublist.cons _ ih
    · rw [if_neg hc]
      simp only [List.map_cons]
      exact List.Sublist.cons₂ _ ih

/-- Claim C6: a successful compression of a nonempty candidate batch
replaces the candidates with exactly one representative at the episodic
tier whose importance equals the maximum of the inputs' importances and
whose metadata holds the provenance of every input; every original
candidate is removed from the store. -/
theorem claim_C6 (cfg : Config) (summarize : List String → Except Err String)
    (dfac : Nat → ℚ) (s : Store) (c : MemoryRecord) (cs : List MemoryRecord)
    (summary : String)
    (hsel : select_candidates cfg dfac s.clock s = c :: cs)
    (hsum : summarize ((c :: cs).map fun r => r.content) = Except.ok summary)
    (hids : ∀ r ∈ s.records, r.id < s.nextId) :
    ∃ rep s2, compress cfg summarize dfac s = Except.ok s2 ∧
      s2.records = (s.records.filter fun r =>
          !((c :: cs).any fun q => decide (q.id = r.id))) ++ [rep] ∧
      rep.importance = maxImpOf c cs ∧
      (∀ q ∈ c :: cs, q.importance ≤ rep.importance) ∧
      (∃ q ∈ c :: cs, rep.importance = q.importance) ∧
      (∀ q ∈ c :: cs, ∀ m ∈ q.metadata, m ∈ rep.metadata) ∧
      rep.tier = Tier.episodic ∧ rep.content = summary ∧
      ∀ q ∈ c :: cs, q ∉ s2.records := by
  refine ⟨{ id := s.nextId, sessionId := c.sessionId, content := summary,
            category := c.category, importance := maxImpOf c cs,
            tier := Tier.episodic, createdAt := s.clock, updatedAt := s.clock,
            metadata := provenance (c :: cs) },
    { records := (s.records.filter fun r =>
          !((c :: cs).any fun q => decide (q.id = r.id))) ++
          [{ id := s.nextId, sessionId := c.sessionId, content := summary,
             category := c.category, importance := maxImpOf c cs,
             tier := Tier.episodic, createdAt := s.clock, updatedAt := s.clock,
             metadata := provenance (c :: cs) }]
      nextId := s.nextId + 1
      clock := s.clock + 1 }, ?_, rfl, rfl, ?_, ?_, ?_, rfl, rfl, ?_⟩
  · unfold compress
    simp only [hsel, hsum]
  · intro q hq
    exact maxImpOf_ge hq
  · exact maxImpOf_attained c cs
  · intro q hq m hm
    exact provenance_mem hq m hm
  · intro q hq hq2
    have hqsel : q ∈ select_candidates cfg dfac s.clock s := hsel ▸ hq
    have hqs : q ∈ s.records := (mem_select_candidates hqsel).1
    have hqid : q.id < s.nextId := hids q hqs
    rcases List.mem_append.mp hq2 with hq3 | hq4
    · have := (List.mem_filter.mp hq3).2
      simp only [Bool.not_eq_eq_eq_not, Bool.not_true, List.any_eq_false,
        decide_eq_true_eq] at this
      exact this q hq rfl
    · rcases List.mem_cons.mp hq4 with he | hcontra
      · have hqe : q.id = s.nextId := by rw [he]
        exact absurd (hqe ▸ hqid) (lt_irrefl _)
      · cases hcontra

/-- Witness for C6: compressing the concrete two-record store. -/
theorem claim_C6_witness :
    ∃ rep s2, compress cfgW (fun _ => Except.ok "s") dfacOne sTwo = Except.ok s2 ∧
      s2.records = (sTwo.records.filter fun r =>
          !(([recEp] : List MemoryRecord).any fun q => decide (q.id = r.id))) ++ [rep] ∧
      rep.importance = maxImpOf recEp [] ∧
      (∀ q ∈ [recEp], q.importance ≤ rep.importance) ∧
      (∃ q ∈ [recEp], rep.importance = q.importance) ∧
      (∀ q ∈ [recEp], ∀ m ∈ q.metadata, m ∈ rep.metadata) ∧
      rep.tier = Tier.episodic ∧ rep.content = "s" ∧
      ∀ q ∈ [recEp], q ∉ s2.records :=
  claim_C6 cfgW (fun _ => Except.ok "s") dfacOne sTwo recEp [] "s"
    (by decide) rfl (by decide)

theorem updateFields_id (c? cat? : Option String)
    (md? : Option (List (String × String))) (i? : Option ℚ) (now : Nat)
    (q : MemoryRecord) : (updateFields c? cat? md? i? now q).id = q.id := rfl

theorem updateFields_tier (c? cat? : Option String)
    (md? : Option (List (String × String))) (i? : Option ℚ) (now : Nat)
    (q : MemoryRecord) : (updateFields c? cat? md? i? now q).tier = q.tier := rfl

theorem updateFields_importance (c? cat? : Option String)
    (md? : Option (List (String × String))) (i? : Option ℚ) (now : Nat)
    (q : MemoryRecord) :
    (updateFields c? cat? md? i? now q).importance = i?.getD q.importance := rfl

/-- What a successful `remember` does to the store: the returned record
is fresh, carries an importance in [0,1], lands in the wisdom or the
working tier, and the record list is the old one with the record
appended, possibly after the working-tier overflow eviction. -/
theorem remember_ok_cases {cfg : Config} {sem : ℚ} {s : Store}
    {sid c cat : String} {md : List (String × String)} {i? : Option ℚ}
    {r : MemoryRecord} {s2 : Store}
    (h : remember cfg sem s sid c cat md i? = Except.ok (r, s2)) :
    r.id = s.nextId ∧ r.createdAt = s.clock ∧
    0 ≤ r.importance ∧ r.importance ≤ 1 ∧
    (r.tier = Tier.wisdom ∨ r.tier = Tier.working) ∧
    r.sessionId = sid ∧ r.content = c ∧
    s2.nextId = s.nextId + 1 ∧ s2.clock = s.clock + 1 ∧
    ((s2.records = s.records ++ [r] ∧
        (r.tier = Tier.wisdom ∨
          countWorking (s.records ++ [r]) ≤ cfg.workingCapacity)) ∨
      (s2.records = evictOldest cfg (s.records ++ [r]) ∧
        r.tier = Tier.working ∧
        cfg.workingCapacity < countWorking (s.records ++ [r]))) := by
  rcases i? with _ | i
  · simp only [remember] at h
    by_cases hsid : sid = ""
    · rw [if_pos hsid] at h
      cases h
    · rw [if_neg hsid] at h
      rw [if_pos (show impOk none = true from rfl)] at h
      simp only [Except.ok.injEq, Prod.mk.injEq] at h
      obtain ⟨h1, h2⟩ := h
      subst h1
      subst h2
      refine ⟨rfl, rfl, (autoScore_mem sem cat).1, (autoScore_mem sem cat).2,
        Or.inr rfl, rfl, rfl, rfl, rfl, ?_⟩
      by_cases hcap : cfg.workingCapacity <
          countWorking (s.records ++ [mkRecord s sid c cat md (autoScore sem cat) Tier.working])
      · exact Or.inr ⟨by simp only [insertWorking]; rw [if_pos hcap], rfl, hcap⟩
      · exact Or.inl ⟨by simp only [insertWorking]; rw [if_neg hcap],
          Or.inr (le_of_not_lt hcap)⟩
  · simp only [remember] at h
    by_cases hsid : sid = ""
    · rw [if_pos hsid] at h
      cases h
    · rw [if_neg hsid] at h
      by_cases hok : impOk (some i) = true
      · rw [if_pos hok] at h
        have hb : 0 ≤ i ∧ i ≤ 1 := by
          simpa [impOk, Bool.and_eq_true, decide_eq_true_eq] using hok
        by_cases hwis : cfg.wisdomThreshold ≤ i
        · rw [if_pos hwis] at h
          simp only [Except.ok.injEq, Prod.mk.injEq] at h
          obtain ⟨h1, h2⟩ := h
          subst h1
          subst h2
          exact ⟨rfl, rfl, hb.1, hb.2, Or.inl rfl, rfl, rfl, rfl, rfl,
            Or.inl ⟨rfl, Or.inl rfl⟩⟩
        · rw [if_neg hwis] at h
          simp only [Except.ok.injEq, Prod.mk.injEq] at h
          obtain ⟨h1, h2⟩ := h
          subst h1
          subst h2
          refine ⟨rfl, rfl, hb.1, hb.2, Or.inr rfl, rfl, rfl, rfl, rfl, ?_⟩
          by_cases hcap : cfg.workingCapacity <
              countWorking (s.records ++ [mkRecord s sid c cat md i Tier.working])
          · exact Or.inr ⟨by simp only [insertWorking]; rw [if_pos hcap], rfl, hcap⟩
          · exact Or.inl ⟨by simp only [insertWorking]; rw [if_neg hcap],
              Or.inr (le_of_not_lt hcap)⟩
      · rw [if_neg hok] at h
        cases h

/-- What a successful `update` does to the store. -/
theorem update_ok_cases {s : Store} {mid : Nat} {c? cat? : Option String}
    {md? : Option (List (String × String))} {i? : Option ℚ}
    {r2 : MemoryRecord} {s2 : Store}
    (h : update s mid c? cat? md? i? = Except.ok (r2, s2)) :
    impOk i? = true ∧ s2.nextId = s.nextId ∧ s2.clock = s.clock + 1 ∧
    s2.records = s.records.map fun q =>
      if q.id = mid then updateFields c? cat? md? i? s.clock q else q := by
  unfold update at h
  by_cases hok : impOk i? = true
  · rw [if_pos hok] at h
    rcases hf : s.records.find? (fun r => decide (r.id = mid)) with _ | r
    · simp only [hf] at h
      cases h
    · simp only [hf, Except.ok.injEq, Prod.mk.injEq] at h
      obtain ⟨_, h2⟩ := h
      subst h2
      exact ⟨hok, rfl, rfl, rfl⟩
  · rw [if_neg hok] at h
    cases h

/-- What a successful `forget` does to the store. -/
theorem forget_ok_records {s : Store} {mid : Nat} {s2 : Store}
    (h : forget s mid = Except.ok s2) :
    s2.records = s.records.filter (fun r => !(decide (r.id = mid))) ∧
    s2.nextId = s.nextId ∧ s2.clock = s.clock := by
  unfold forget at h
  by_cases hc : (s.records.any fun r => decide (r.id = mid)) = true
  · rw [if_pos hc] at h
    simp only [Except.ok.injEq] at h
    subst h
    exact ⟨rfl, rfl, rfl⟩
  · rw [if_neg hc] at h
    cases h

/-- What a successful `compress` does to the store. -/
theorem compress_ok_cases {cfg : Config}
    {summarize : List String → Except Err String} {dfac : Nat → ℚ}
    {s s2 : Store} (h : compress cfg summarize dfac s = Except.ok s2) :
    (select_candidates cfg dfac s.clock s = [] ∧ s2 = s) ∨
    ∃ c cs summary, select_candidates cfg dfac s.clock s = c :: cs ∧
      summarize ((c :: cs).map fun r => r.content) = Except.ok summary ∧
      s2.records = (s.records.filter fun r =>
          !((c :: cs).any fun q => decide (q.id = r.id))) ++
        [{ id := s.nextId, sessionId := c.sessionId, content := summary,
           category := c.category, importance := maxImpOf c cs,
           tier := Tier.episodic, createdAt := s.clock, updatedAt := s.clock,
           metadata := provenance (c :: cs) }] ∧
      s2.nextId = s.nextId + 1 ∧ s2.clock = s.clock + 1 := by
  unfold compress at h
  rcases hsel : select_candidates cfg dfac s.clock s with _ | ⟨c, cs⟩
  · simp only [hsel, Except.ok.injEq] at h
    exact Or.inl ⟨rfl, h.symm⟩
  · simp only [hsel] at h
    rcases hsum : summarize ((c :: cs).map fun r => r.content) with e | summary
    · simp only [hsum] at h
      cases h
    · simp only [hsum, Except.ok.injEq] at h
      subst h
      exact Or.inr ⟨c, cs, summary, rfl, hsum, rfl, rfl, rfl⟩

theorem ids_sublist_bound {l l' : List MemoryRecord} {n : Nat}
    (hsub : (l'.map fun r => r.id).Sublist (l.map fun r => r.id))
    (hb : ∀ r ∈ l, r.id < n) : ∀ r ∈ l', r.id < n := by
  intro r hr
  have hmem : r.id ∈ l.map fun r => r.id :=
    hsub.subset (List.mem_map.mpr ⟨r, hr, rfl⟩)
  obtain ⟨p, hp, he⟩ := List.mem_map.mp hmem
  rw [← he]
  exact hb p hp

theorem pairwise_ids_of_sublist {l l' : List MemoryRecord}
    (hsub : (l'.map fun r => r.id).Sublist (l.map fun r => r.id))
    (hp : l.Pairwise fun a b => a.id < b.id) :
    l'.Pairwise fun a b => a.id < b.id := by
  exact List.pairwise_map.mp (List.Pairwise.sublist hsub (List.pairwise_map.mpr hp))

theorem countWorking_map {g : MemoryRecord → MemoryRecord}
    (hg : ∀ x, (g x).tier = Tier.working ↔ x.tier = Tier.working)
    (l : List MemoryRecord) : countWorking (l.map g) = countWorking l := by
  unfold countWorking
  rw [List.filter_map, List.length_map]
  congr 1
  exact List.filter_congr fun x _ => decide_eq_decide.mpr (hg x)

theorem countWorking_sublist {l l' : List MemoryRecord} (h : l'.Sublist l) :
    countWorking l' ≤ countWorking l :=
  (h.filter _).length_le

/-- A list with a positive working count has a first working record. -/
theorem firstWorking_of_pos {l : List MemoryRecord}
    (h : 0 < countWorking l) : ∃ o, firstWorking l = some o := by
  rcases hf : firstWorking l with _ | o
  · unfold firstWorking at hf
    have := List.find?_eq_none.mp hf
    have h0 : countWorking l = 0 :=
      countWorking_eq_zero fun x hx hc => (this x hx) (by simpa using hc)
    omega
  · exact ⟨o, rfl⟩

/-- The importance range invariant is preserved by every facade
operation and maintenance pass. -/
theorem impInv_applyOp (cfg : Config) {s : Store} (hs : ImpInv s) (op : Op) :
    ImpInv (applyOp cfg s op) := by
  intro q hq
  cases op with
  | opRemember sem sid c cat md i? =>
    unfold applyOp at hq
    rcases hrem : remember cfg sem s sid c cat md i? with e | ⟨r, s2⟩
    · simp only [hrem] at hq
      exact hs q hq
    · simp only [hrem] at hq
      obtain ⟨_, _, hb0, hb1, _, _, _, _, _, hrec⟩ := remember_ok_cases hrem
      have happ : ∀ p, p ∈ s.records ++ [r] → 0 ≤ p.importance ∧ p.importance ≤ 1 := by
        intro p hp
        rcases List.mem_append.mp hp with hp1 | hp2
        · exact hs p hp1
        · rcases List.mem_cons.mp hp2 with rfl | hc
          · exact ⟨hb0, hb1⟩
          · cases hc
      rcases hrec with ⟨he, _⟩ | ⟨he, _, _⟩
      · rw [he] at hq
        exact happ q hq
      · rw [he] at hq
        rcases mem_evictOldest_origin cfg hq with h1 | ⟨p, hp, _, hqe⟩
        · exact happ q h1
        · rw [hqe]
          exact happ p hp
  | opUpdate mid c? cat? md? i? =>
    unfold applyOp at hq
    rcases hup : update s mid c? cat? md? i? with e | ⟨r2, s2⟩
    · simp only [hup] at hq
      exact hs q hq
    · simp only [hup] at hq
      obtain ⟨hok, _, _, he⟩ := update_ok_cases hup
      rw [he] at hq
      obtain ⟨p, hp, hqe⟩ := List.mem_map.mp hq
      by_cases hid : p.id = mid
      · rw [if_pos hid] at hqe
        rw [← hqe, updateFields_importance]
        rcases i? with _ | i
        · exact hs p hp
        · simpa [impOk, Bool.and_eq_true, decide_eq_true_eq] using hok
      · rw [if_neg hid] at hqe
        rw [← hqe]
        exact hs p hp
  | opForget mid =>
    unfold applyOp at hq
    rcases hfo : forget s mid with e | s2
    · simp only [hfo] at hq
      exact hs q hq
    · simp only [hfo] at hq
      obtain ⟨he, _, _⟩ := forget_ok_records hfo
      rw [he] at hq
      exact hs q (List.mem_filter.mp hq).1
  | opForgetAll sid cat? =>
    unfold applyOp at hq
    exact hs q (List.mem_filter.mp hq).1
  | opPromote =>
    unfold applyOp at hq
    unfold promote_candidates at hq
    obtain ⟨p, hp, hqe⟩ := List.mem_map.mp hq
    by_cases hc : p.tier = Tier.episodic ∧ cfg.wisdomThreshold ≤ p.importance
    · rw [if_pos hc] at hqe
      rw [← hqe]
      exact hs p hp
    · rw [if_neg hc] at hqe
      rw [← hqe]
      exact hs p hp
  | opEvictDue =>
    unfold applyOp at hq
    unfold evict_due at hq
    rcases mem_evictExpired_origin cfg s.clock hq with h1 | ⟨p, hp, _, hqe⟩
    · exact hs q h1
    · rw [hqe]
      exact hs p hp
  | opCompress summarize dfac =>
    unfold applyOp at hq
    rcases hcp : compress cfg summarize dfac s with e | s2
    · simp only [hcp] at hq
      exact hs q hq
    · simp only [hcp] at hq
      rcases compress_ok_cases hcp with ⟨_, rfl⟩ | ⟨c, cs, summary, hsel, _, he, _, _⟩
      · exact hs q hq
      · rw [he] at hq
        rcases List.mem_append.mp hq with h1 | h2
        · exact hs q (List.mem_filter.mp h1).1
        · rcases List.mem_cons.mp h2 with rfl | hc2
          · obtain ⟨p, hp, hpe⟩ := maxImpOf_attained c cs
            have hps : p ∈ s.records :=
              (mem_select_candidates (hsel ▸ hp)).1
            simpa [hpe] using hs p hps
          · cases hc2

/-- Structural well-formedness is preserved by every operation. -/
theorem storeWF_applyOp (cfg : Config) {s : Store} (hs : StoreWF s) (op : Op) :
    StoreWF (applyOp cfg s op) := by
  obtain ⟨hpw, hb⟩ := hs
  cases op with
  | opRemember sem sid c cat md i? =>
    simp only [applyOp]
    rcases hrem : remember cfg sem s sid c cat md i? with e | ⟨r, s2⟩
    · simp only [hrem]
      exact ⟨hpw, hb⟩
    · simp only [hrem]
      obtain ⟨hid, _, _, _, _, _, _, hnext, _, hrec⟩ := remember_ok_cases hrem
      have happ_pw : (s.records ++ [r]).Pairwise fun a b => a.id < b.id := by
        rw [List.pairwise_append]
        refine ⟨hpw, List.pairwise_singleton _ _, ?_⟩
        intro a ha b hbm
        rcases List.mem_cons.mp hbm with rfl | hc
        · rw [hid]
          exact hb a ha
        · cases hc
      have happ_b : ∀ p ∈ s.records ++ [r], p.id < s.nextId + 1 := by
        intro p hp
        rcases List.mem_append.mp hp with hp1 | hp2
        · exact Nat.lt_succ_of_lt (hb p hp1)
        · rcases List.mem_cons.mp hp2 with rfl | hc
          · rw [hid]
            exact Nat.lt_succ_self _
          · cases hc
      rcases hrec with ⟨he, _⟩ | ⟨he, _, _⟩
      · constructor
        · rw [he]
          exact happ_pw
        · intro p hp
          rw [he] at hp
          rw [hnext]
          exact happ_b p hp
      · constructor
        · rw [he]
          exact pairwise_ids_of_sublist (evictOldest_ids_sublist cfg _) happ_pw
        · intro p hp
          rw [he] at hp
          rw [hnext]
          exact ids_sublist_bound (evictOldest_ids_sublist cfg _) happ_b p hp
  | opUpdate mid c? cat? md? i? =>
    simp only [applyOp]
    rcases hup : update s mid c? cat? md? i? with e | ⟨r2, s2⟩
    · simp only [hup]
      exact ⟨hpw, hb⟩
    · simp only [hup]
      obtain ⟨_, hnext, _, he⟩ := update_ok_cases hup
      have hmap : (s.records.map fun q =>
          if q.id = mid then updateFields c? cat? md? i? s.clock q else q).map
            (fun r => r.id) = s.records.map fun r => r.id := by
        rw [List.map_map]
        refine List.map_congr_left fun a _ => ?_
        by_cases hc : a.id = mid
        · simp only [Function.comp_apply, if_pos hc, updateFields_id]
        · simp only [Function.comp_apply, if_neg hc]
      constructor
      · rw [he]
        exact pairwise_ids_of_sublist (by rw [hmap]) hpw
      · intro p hp
        rw [hnext]
        rw [he] at hp
        exact ids_sublist_bound (by rw [hmap]) hb p hp
  | opForget mid =>
    simp only [applyOp]
    rcases hfo : forget s mid with e | s2
    · simp only [hfo]
      exact ⟨hpw, hb⟩
    · simp only [hfo]
      obtain ⟨he, hnext, _⟩ := forget_ok_records hfo
      have hsub := (List.filter_sublist (p := fun r => !(decide (r.id = mid)))
        s.records).map fun r => r.id
      constructor
      · rw [he]
        exact pairwise_ids_of_sublist hsub hpw
      · intro p hp
        rw [hnext]
        rw [he] at hp
        exact ids_sublist_bound hsub hb p hp
  | opForgetAll sid cat? =>
    simp only [applyOp, forget_all]
    have hsub := (List.filter_sublist (p := fun r =>
      !(decide (r.sessionId = sid) && (match cat? with
        | none => true
        | some c => decide (r.category = c)))) s.records).map fun r => r.id
    constructor
    · exact pairwise_ids_of_sublist hsub hpw
    · intro p hp
      exact ids_sublist_bound hsub hb p hp
  | opPromote =>
    simp only [applyOp, promote_candidates]
    have hmap : (s.records.map fun r =>
        if r.tier = Tier.episodic ∧ cfg.wisdomThreshold ≤ r.importance
        then { r with tier := Tier.wisdom } else r).map (fun r => r.id) =
          s.records.map fun r => r.id := by
      rw [List.map_map]
      refine List.map_congr_left fun a _ => ?_
      by_cases hc : a.tier = Tier.episodic ∧ cfg.wisdomThreshold ≤ a.importance
      · simp only [Function.comp_apply, if_pos hc]
      · simp only [Function.comp_apply, if_neg hc]
    constructor
    · exact pairwise_ids_of_sublist (by rw [hmap]) hpw
    · intro p hp
      exact ids_sublist_bound (by rw [hmap]) hb p hp
  | opEvictDue =>
    simp only [applyOp, evict_due]
    constructor
    · exact pairwise_ids_of_sublist (evictExpired_ids_sublist cfg s.clock _) hpw
    · intro p hp
      exact ids_sublist_bound (evictExpired_ids_sublist cfg s.clock _) hb p hp
  | opCompress summarize dfac =>
    simp only [applyOp]
    rcases hcp : compress cfg summarize dfac s with e | s2
    · simp only [hcp]
      exact ⟨hpw, hb⟩
    · simp only [hcp]
      rcases compress_ok_cases hcp with ⟨_, rfl⟩ | ⟨c, cs, summary, hsel, _, he, hnext, _⟩
      · exact ⟨hpw, hb⟩
      · have hfsub := (List.filter_sublist (p := fun r =>
          !((c :: cs).any fun q => decide (q.id = r.id))) s.records).map fun r => r.id
        constructor
        · rw [he, List.pairwise_append]
          refine ⟨pairwise_ids_of_sublist hfsub hpw, List.pairwise_singleton _ _, ?_⟩
          intro a ha b hbm
          rcases List.mem_cons.mp hbm with rfl | hc
          · exact ids_sublist_bound hfsub hb a ha
          · cases hc
        · intro p hp
          rw [hnext]
          rw [he] at hp
          rcases List.mem_append.mp hp with h1 | h2
          · exact Nat.lt_succ_of_lt (ids_sublist_bound hfsub hb p h1)
          · rcases List.mem_cons.mp h2 with rfl | hc
            · exact Nat.lt_succ_self _
            · cases hc

/-- A wisdom-tier record is never degraded by an operation that does not
write an explicit importance: any surviving record with its id is still
wisdom-tier with importance at least the old one. -/
theorem wisdom_preserved (cfg : Config) {s : Store}
    (hpw : s.records.Pairwise fun a b => a.id < b.id)
    (hb : ∀ p ∈ s.records, p.id < s.nextId)
    {op : Op} (hop : op.setsImportance = false)
    {r : MemoryRecord} (hr : r ∈ s.records) (hw : r.tier = Tier.wisdom) :
    ∀ q ∈ (applyOp cfg s op).records, q.id = r.id →
      r.importance ≤ q.importance ∧ q.tier = Tier.wisdom := by
  intro q hq hid
  have base : q ∈ s.records → r.importance ≤ q.importance ∧ q.tier = Tier.wisdom := by
    intro hqs
    have hqr : q = r := pairwise_id_eq hpw hqs hr hid
    rw [hqr]
    exact ⟨le_refl _, hw⟩
  cases op with
  | opRemember sem sid c cat md i? =>
    unfold applyOp at hq
    rcases hrem : remember cfg sem s sid c cat md i? with e | ⟨rn, s2⟩
    · simp only [hrem] at hq
      exact base hq
    · simp only [hrem] at hq
      obtain ⟨hidn, _, _, _, _, _, _, _, _, hrec⟩ := remember_ok_cases hrem
      have happ : q ∈ s.records ++ [rn] →
          r.importance ≤ q.importance ∧ q.tier = Tier.wisdom := by
        intro hp
        rcases List.mem_append.mp hp with hp1 | hp2
        · exact base hp1
        · rcases List.mem_cons.mp hp2 with rfl | hc
          · exfalso
            have h1 : q.id = s.nextId := hidn
            have h2 : r.id < s.nextId := hb r hr
            omega
          · cases hc
      rcases hrec with ⟨he, _⟩ | ⟨he, _, _⟩
      · rw [he] at hq
        exact happ hq
      · rw [he] at hq
        rcases mem_evictOldest_origin cfg hq with h1 | ⟨p, hp, hpwk, hqe⟩
        · exact happ h1
        · exfalso
          have hpid : p.id = r.id := by
            rw [← hid, hqe]
          rcases List.mem_append.mp hp with hp1 | hp2
          · have hpr : p = r := pairwise_id_eq hpw hp1 hr hpid
            rw [hpr, hw] at hpwk
            cases hpwk
          · rcases List.mem_cons.mp hp2 with rfl | hc
            · have h2 : r.id < s.nextId := hb r hr
              have h1 : p.id = s.nextId := hidn
              omega
            · cases hc
  | opUpdate mid c? cat? md? i? =>
    rcases i? with _ | i
    · unfold applyOp at hq
      rcases hup : update s mid c? cat? md? none with e | ⟨r2, s2⟩
      · simp only [hup] at hq
        exact base hq
      · simp only [hup] at hq
        obtain ⟨_, _, _, he⟩ := update_ok_cases hup
        rw [he] at hq
        obtain ⟨p, hp, hqe⟩ := List.mem_map.mp hq
        have hpid : p.id = r.id := by
          rw [← hid, ← hqe]
          by_cases hm : p.id = mid
          · rw [if_pos hm, updateFields_id]
          · rw [if_neg hm]
        have hpr : p = r := pairwise_id_eq hpw hp hr hpid
        subst hpr
        by_cases hm : p.id = mid
        · rw [if_pos hm] at hqe
          rw [← hqe, updateFields_importance, updateFields_tier]
          exact ⟨le_refl _, hw⟩
        · rw [if_neg hm] at hqe
          rw [← hqe]
          exact ⟨le_refl _, hw⟩
    · exact absurd hop (by simp [Op.setsImportance])
  | opForget mid =>
    unfold applyOp at hq
    rcases hfo : forget s mid with e | s2
    · simp only [hfo] at hq
      exact base hq
    · simp only [hfo] at hq
      obtain ⟨he, _, _⟩ := forget_ok_records hfo
      rw [he] at hq
      exact base (List.mem_filter.mp hq).1
  | opForgetAll sid cat? =>
    unfold applyOp at hq
    exact base (List.mem_filter.mp hq).1
  | opPromote =>
    unfold applyOp at hq
    unfold promote_candidates at hq
    obtain ⟨p, hp, hqe⟩ := List.mem_map.mp hq
    have hpid : p.id = r.id := by
      rw [← hid, ← hqe]
      by_cases hc : p.tier = Tier.episodic ∧ cfg.wisdomThreshold ≤ p.importance
      · rw [if_pos hc]
      · rw [if_neg hc]
    have hpr : p = r := pairwise_id_eq hpw hp hr hpid
    subst hpr
    rw [if_neg (fun hc => by rw [hw] at hc; cases hc.1)] at hqe
    rw [← hqe]
    exact ⟨le_refl _, hw⟩
  | opEvictDue =>
    unfold applyOp at hq
    unfold evict_due at hq
    rcases mem_evictExpired_origin cfg s.clock hq with h1 | ⟨p, hp, hpwk, hqe⟩
    · exact base h1
    · exfalso
      have hpid : p.id = r.id := by
        rw [← hid, hqe]
      have hpr : p = r := pairwise_id_eq hpw hp hr hpid
      rw [hpr, hw] at hpwk
      cases hpwk
  | opCompress summarize dfac =>
    unfold applyOp at hq
    rcases hcp : compress cfg summarize dfac s with e | s2
    · simp only [hcp] at hq
      exact base hq
    · simp only [hcp] at hq
      rcases compress_ok_cases hcp with ⟨_, rfl⟩ | ⟨c, cs, summary, _, _, he, _, _⟩
      · exact base hq
      · rw [he] at hq
        rcases List.mem_append.mp hq with h1 | h2
        · exact base (List.mem_filter.mp h1).1
        · rcases List.mem_cons.mp h2 with rfl | hc
          · exfalso
            have h1 : s.nextId = r.id := hid
            have h2 : r.id < s.nextId := hb r hr
            omega
          · cases hc

/-- The working-tier capacity bound is preserved by every operation. -/
theorem countWorking_applyOp (cfg : Config) {s : Store}
    (hc : countWorking s.records ≤ cfg.workingCapacity) (op : Op) :
    countWorking (applyOp cfg s op).records ≤ cfg.workingCapacity := by
  cases op with
  | opRemember sem sid c cat md i? =>
    simp only [applyOp]
    rcases hrem : remember cfg sem s sid c cat md i? with e | ⟨r, s2⟩
    · simp only [hrem]
      exact hc
    · simp only [hrem]
      obtain ⟨_, _, _, _, _, _, _, _, _, hrec⟩ := remember_ok_cases hrem
      rcases hrec with ⟨he, hca⟩ | ⟨he, hwork, hcap⟩
      · rw [he]
        rcases hca with hwis | hle
        · rw [countWorking_append]
          have h0 : countWorking [r] = 0 := countWorking_eq_zero fun x hx => by
            rcases List.mem_cons.mp hx with rfl | h1
            · rw [hwis]
              intro hcontra
              cases hcontra
            · cases h1
          rw [h0]
          omega
        · exact hle
      · rw [he]
        have hpos : 0 < countWorking (s.records ++ [r]) := by omega
        obtain ⟨o, ho⟩ := firstWorking_of_pos hpos
        have hcount := countWorking_evictOldest cfg ho
        have happ : countWorking (s.records ++ [r]) =
            countWorking s.records + 1 := by
          rw [countWorking_append, countWorking_cons_working _ hwork]
          rfl
        omega
  | opUpdate mid c? cat? md? i? =>
    simp only [applyOp]
    rcases hup : update s mid c? cat? md? i? with e | ⟨r2, s2⟩
    · simp only [hup]
      exact hc
    · simp only [hup]
      obtain ⟨_, _, _, he⟩ := update_ok_cases hup
      rw [he, countWorking_map fun x => ?_]
      · exact hc
      · by_cases hm : x.id = mid
        · rw [if_pos hm, updateFields_tier]
        · rw [if_neg hm]
  | opForget mid =>
    simp only [applyOp]
    rcases hfo : forget s mid with e | s2
    · simp only [hfo]
      exact hc
    · simp only [hfo]
      obtain ⟨he, _, _⟩ := forget_ok_records hfo
      rw [he]
      exact le_trans (countWorking_sublist (List.filter_sublist _)) hc
  | opForgetAll sid cat? =>
    simp only [applyOp, forget_all]
    exact le_trans (countWorking_sublist (List.filter_sublist _)) hc
  | opPromote =>
    simp only [applyOp, promote_candidates]
    rw [countWorking_map fun x => ?_]
    · exact hc
    · by_cases hcx : x.tier = Tier.episodic ∧ cfg.wisdomThreshold ≤ x.importance
      · rw [if_pos hcx]
        constructor
        · intro hcontra
          cases hcontra
        · intro hcontra
          rw [hcontra] at hcx
          cases hcx.1
      · rw [if_neg hcx]
  | opEvictDue =>
    simp only [applyOp, evict_due]
    exact le_trans (countWorking_evictExpired cfg s.clock _) hc
  | opCompress summarize dfac =>
    simp only [applyOp]
    rcases hcp : compress cfg summarize dfac s with e | s2
    · simp only [hcp]
      exact hc
    · simp only [hcp]
      rcases compress_ok_cases hcp with ⟨_, rfl⟩ | ⟨c, cs, summary, _, _, he, _, _⟩
      · exact hc
      · rw [he, countWorking_append]
        have h0 : ∀ x : MemoryRecord, x.tier = Tier.episodic →
            countWorking [x] = 0 := fun x hx =>
          countWorking_eq_zero fun y hy => by
            rcases List.mem_cons.mp hy with rfl | h1
            · rw [hx]
              intro hcontra
              cases hcontra
            · cases h1
        rw [h0 _ rfl]
        have := countWorking_sublist (l := s.records)
          (List.filter_sublist (p := fun r =>
            !((c :: cs).any fun q => decide (q.id = r.id))) s.records)
        omega

theorem impInv_applyOps (cfg : Config) {s : Store} (hs : ImpInv s)
    (ops : List Op) : ImpInv (applyOps cfg s ops) := by
  induction ops generalizing s with
  | nil => exact hs
  | cons op ops ih => exact ih (impInv_applyOp cfg hs op)

theorem storeWF_applyOps (cfg : Config) {s : Store} (hs : StoreWF s)
    (ops : List Op) : StoreWF (applyOps cfg s ops) := by
  induction ops generalizing s with
  | nil => exact hs
  | cons op ops ih => exact ih (storeWF_applyOp cfg hs op)

theorem countWorking_applyOps (cfg : Config) {s : Store}
    (hc : countWorking s.records ≤ cfg.workingCapacity) (ops : List Op) :
    countWorking (applyOps cfg s ops).records ≤ cfg.workingCapacity := by
  induction ops generalizing s with
  | nil => exact hc
  | cons op ops ih => exact ih (countWorking_applyOp cfg hc op)

theorem impInv_empty : ImpInv emptyStore := by
  intro r hr
  cases hr

theorem storeWF_empty : StoreWF emptyStore := by
  constructor
  · exact List.Pairwise.nil
  · intro r hr
    cases hr

/-- Witness for C3 at rate 1/2, initial importance 1, times 1 and 2. -/
theorem claim_C3_witness :
    ((0:ℝ) < 1/2 ∧ (1:ℝ)/2 < 1 ∧ (0:ℝ) ≤ 1 ∧ (0:ℝ) ≤ (1:ℝ) ∧ (1:ℝ) ≤ 2) ∧
    decay true (1/2) 1 1 = 1 * Real.exp (-(1/2 * 1)) ∧
    decay true (1/2) 1 2 ≤ decay true (1/2) 1 1 ∧
    decay false (1/2) 1 1 = 1 := by
  refine ⟨⟨by norm_num, by norm_num, by norm_num, by norm_num, by norm_num⟩, ?_, ?_, ?_⟩
  · exact (claim_C3 1 (1/2) 1 1 2).1 (by norm_num) (by norm_num) (by norm_num)
  · exact (claim_C3 1 (1/2) 1 1 2).2.1 (by norm_num) (by norm_num) (by norm_num)
      (by norm_num)
  · exact (claim_C3 1 (1/2) 1 1 2).2.2

/-- Claim C1, with the claim refuted for explicit-importance updates and
amended accordingly: in every reachable store all stored importances lie
in [0,1]; the lazily decayed effective importance lies in [0,1] whenever
the injected decay factor does; and a wisdom-tier record is frozen — its
effective importance equals its stored importance and no operation other
than an update carrying an explicit importance can decrease its
importance or move it off the wisdom tier. -/
theorem claim_C1 (cfg : Config) (ops : List Op) :
    (∀ r ∈ (applyOps cfg emptyStore ops).records,
      0 ≤ r.importance ∧ r.importance ≤ 1) ∧
    (∀ (dfac : Nat → ℚ) (now : Nat),
      (∀ e, 0 ≤ dfac e ∧ dfac e ≤ 1) →
      ∀ r ∈ (applyOps cfg emptyStore ops).records,
        0 ≤ effImp cfg dfac now r ∧ effImp cfg dfac now r ≤ 1) ∧
    ∀ r ∈ (applyOps cfg emptyStore ops).records, r.tier = Tier.wisdom →
      (∀ (dfac : Nat → ℚ) (now : Nat), effImp cfg dfac now r = r.importance) ∧
      ∀ (op : Op), op.setsImportance = false →
        ∀ q ∈ (applyOp cfg (applyOps cfg emptyStore ops) op).records,
          q.id = r.id → r.importance ≤ q.importance ∧ q.tier = Tier.wisdom := by
  have hinv := impInv_applyOps cfg impInv_empty ops
  have hwf := storeWF_applyOps cfg storeWF_empty ops
  refine ⟨hinv, ?_, ?_⟩
  · intro dfac now hd r hr
    have hb := hinv r hr
    unfold effImp
    split_ifs
    · exact hb
    · exact hb
    · exact ⟨mul_nonneg hb.1 (hd _).1, mul_le_one₀ hb.2 (hd _).1 (hd _).2⟩
    · exact hb
  · intro r hr hw
    refine ⟨?_, ?_⟩
    · intro dfac now
      unfold effImp
      rw [if_pos hw]
    · intro op hop q hq hid
      exact wisdom_preserved cfg hwf.1 hwf.2 hop hr hw q hq hid

/-- Counterexample to C1 as frozen: `update` with an explicit importance
is one of the listed operations, and it lowers a promoted wisdom
record's importance from 0.95 to 0.5 on a reachable store. -/
theorem claim_C1_counterexample :
    rec95 ∈ (applyOps cfgW emptyStore ops95).records ∧
    rec95.tier = Tier.wisdom ∧
    recUpd95 ∈ (applyOps cfgW emptyStore (ops95 ++ [opUpd95])).records ∧
    recUpd95.id = rec95.id ∧ recUpd95.importance < rec95.importance := by
  decide

/-- Witness for C1 at a concrete one-record history, exercising all
three conjuncts with the promote maintenance pass. -/
theorem claim_C1_witness :
    (recW1 ∈ (applyOps cfgW emptyStore opsC1).records ∧
      0 ≤ recW1.importance ∧ recW1.importance ≤ 1) ∧
    ((∀ e, 0 ≤ dfacOne e ∧ dfacOne e ≤ 1) ∧
      0 ≤ effImp cfgW dfacOne 7 recW1 ∧ effImp cfgW dfacOne 7 recW1 ≤ 1) ∧
    (recW1.tier = Tier.wisdom ∧
      effImp cfgW dfacOne 7 recW1 = recW1.importance) ∧
    (Op.opPromote.setsImportance = false ∧
      recW1 ∈ (applyOp cfgW (applyOps cfgW emptyStore opsC1) Op.opPromote).records ∧
      recW1.importance ≤ recW1.importance ∧ recW1.tier = Tier.wisdom) := by
  have h := claim_C1 cfgW opsC1
  have hmem : recW1 ∈ (applyOps cfgW emptyStore opsC1).records := by decide
  have hw : recW1.tier = Tier.wisdom := by decide
  have hpm : recW1 ∈
      (applyOp cfgW (applyOps cfgW emptyStore opsC1) Op.opPromote).records := by
    decide
  have hdf : ∀ e, 0 ≤ dfacOne e ∧ dfacOne e ≤ 1 :=
    fun _ => ⟨zero_le_one, le_refl 1⟩
  refine ⟨⟨hmem, h.1 recW1 hmem⟩,
    ⟨hdf, h.2.1 dfacOne 7 hdf recW1 hmem⟩,
    ⟨hw, (h.2.2 recW1 hmem hw).1 dfacOne 7⟩,
    ⟨by decide, hpm,
      ((h.2.2 recW1 hmem hw).2 Op.opPromote (by decide) recW1 hpm rfl).1,
      ((h.2.2 recW1 hmem hw).2 Op.opPromote (by decide) recW1 hpm rfl).2⟩⟩

/-- Claim C4: the working tier never exceeds its configured capacity;
and an insertion into a full working tier removes exactly the oldest
working record, deleting it when its importance is at or below the
promote-on-evict threshold and moving it (alone) to the episodic tier
when its importance exceeds that threshold, while every other record
stays. -/
theorem claim_C4 :
    (∀ (cfg : Config) (ops : List Op),
      countWorking (applyOps cfg emptyStore ops).records ≤ cfg.workingCapacity) ∧
    ∀ (cfg : Config) (sem : ℚ) (s : Store) (sid c cat : String)
      (md : List (String × String)) (i? : Option ℚ) (r : MemoryRecord)
      (s2 : Store),
      remember cfg sem s sid c cat md i? = Except.ok (r, s2) →
      r.tier = Tier.working →
      countWorking s.records = cfg.workingCapacity →
      1 ≤ cfg.workingCapacity →
      (s.records.Pairwise fun a b => a.id < b.id) →
      (∀ p ∈ s.records, p.id < s.nextId) →
      (s.records.Pairwise fun a b => a.createdAt ≤ b.createdAt) →
      (∀ p ∈ s.records, p.createdAt ≤ s.clock) →
      ∃ o ∈ s.records, o.tier = Tier.working ∧
        (∀ p ∈ s.records, p.tier = Tier.working → o.createdAt ≤ p.createdAt) ∧
        countWorking s2.records = cfg.workingCapacity ∧
        (o.importance ≤ cfg.promoteOnEvict → ∀ q ∈ s2.records, q.id ≠ o.id) ∧
        (cfg.promoteOnEvict < o.importance →
          { o with tier := Tier.episodic } ∈ s2.records ∧
          ∀ q ∈ s2.records, q.id = o.id → q = { o with tier := Tier.episodic }) ∧
        ∀ p ∈ s.records, p ≠ o → p ∈ s2.records := by
  refine ⟨fun cfg ops => countWorking_applyOps cfg (Nat.zero_le _) ops, ?_⟩
  intro cfg sem s sid c cat md i? r s2 hrem hwk hfull hcap hpw hids hcr hclock
  obtain ⟨hrid, hrcreated, _, _, _, _, _, _, _, hrec⟩ := remember_ok_cases hrem
  have happ_cw : countWorking (s.records ++ [r]) = cfg.workingCapacity + 1 := by
    rw [countWorking_append, countWorking_cons_working _ hwk, hfull]
    rfl
  rcases hrec with ⟨_, hca⟩ | ⟨he, _, _⟩
  · exfalso
    rcases hca with hwis | hle
    · rw [hwk] at hwis
      cases hwis
    · omega
  · obtain ⟨o, ho⟩ := firstWorking_of_pos (l := s.records) (by omega)
    have hoS : o ∈ s.records := List.mem_of_find?_eq_some ho
    have how : o.tier = Tier.working := by
      have := List.find?_some ho
      simpa using this
    have hoApp : firstWorking (s.records ++ [r]) = some o := by
      unfold firstWorking at ho ⊢
      rw [List.find?_append, ho]
      rfl
    obtain ⟨l1, l2, hsplit, hnoW, hev⟩ := evictOldest_decomp cfg hoApp
    have happ_pw : (s.records ++ [r]).Pairwise fun a b => a.id < b.id := by
      rw [List.pairwise_append]
      refine ⟨hpw, List.pairwise_singleton _ _, ?_⟩
      intro a ha b hbm
      rcases List.mem_cons.mp hbm with rfl | hcx
      · rw [hrid]
        exact hids a ha
      · cases hcx
    have happ_cr : (s.records ++ [r]).Pairwise
        fun a b => a.createdAt ≤ b.createdAt := by
      rw [List.pairwise_append]
      refine ⟨hcr, List.pairwise_singleton _ _, ?_⟩
      intro a ha b hbm
      rcases List.mem_cons.mp hbm with rfl | hcx
      · rw [hrcreated]
        exact hclock a ha
      · cases hcx
    have hid_l1 : ∀ a ∈ l1, a.id < o.id := by
      intro a ha
      have := happ_pw
      rw [hsplit, List.pairwise_append] at this
      exact this.2.2 a ha o (List.mem_cons_self _ _)
    have hid_l2 : ∀ b ∈ l2, o.id < b.id := by
      intro b hbm
      have := happ_pw
      rw [hsplit, List.pairwise_append] at this
      exact List.rel_of_pairwise_cons this.2.1 hbm
    refine ⟨o, hoS, how, ?_, ?_, ?_, ?_, ?_⟩
    · intro p hp hpw2
      have hpApp : p ∈ s.records ++ [r] := List.mem_append_left _ hp
      rw [hsplit] at hpApp
      rcases List.mem_append.mp hpApp with h1 | h2
      · exact absurd hpw2 (hnoW p h1)
      · rcases List.mem_cons.mp h2 with rfl | h3
        · exact le_refl _
        · have := happ_cr
          rw [hsplit, List.pairwise_append] at this
          exact List.rel_of_pairwise_cons this.2.1 h3
    · rw [he]
      have := countWorking_evictOldest cfg hoApp
      omega
    · intro himp q hq
      rw [he, hev] at hq
      rw [if_neg (not_lt.mpr himp)] at hq
      rcases List.mem_append.mp hq with h1 | h2
      · rcases List.mem_append.mp h1 with h3 | h4
        · exact Nat.ne_of_lt (hid_l1 q h3)
        · cases h4
      · exact (Nat.ne_of_lt (hid_l2 q h2)).symm
    · intro himp
      rw [he, hev, if_pos himp]
      constructor
      · exact List.mem_append_left _ (List.mem_append_right _ (List.mem_cons_self _ _))
      · intro q hq hqid
        rcases List.mem_append.mp hq with h1 | h2
        · rcases List.mem_append.mp h1 with h3 | h4
          · exact absurd hqid (Nat.ne_of_lt (hid_l1 q h3))
          · rcases List.mem_cons.mp h4 with rfl | h5
            · rfl
            · cases h5
        · exact absurd hqid (fun hcx => Nat.lt_irrefl _ (hcx ▸ hid_l2 q h2))
    · intro p hp hne
      rw [he, hev]
      have hpApp : p ∈ s.records ++ [r] := List.mem_append_left _ hp
      rw [hsplit] at hpApp
      rcases List.mem_append.mp hpApp with h1 | h2
      · exact List.mem_append_left _ (List.mem_append_left _ h1)
      · rcases List.mem_cons.mp h2 with rfl | h3
        · exact absurd rfl hne
        · exact List.mem_append_right _ h3

/-- Witness for C4: capacity 2, a third insert into a full working tier;
the oldest low-importance working record is deleted and the other
records stay. -/
theorem claim_C4_witness :
    ∃ o ∈ s4.records, o.tier = Tier.working ∧
      (∀ p ∈ s4.records, p.tier = Tier.working → o.createdAt ≤ p.createdAt) ∧
      countWorking sAfter4.records = cfg4.workingCapacity ∧
      (o.importance ≤ cfg4.promoteOnEvict → ∀ q ∈ sAfter4.records, q.id ≠ o.id) ∧
      (cfg4.promoteOnEvict < o.importance →
        { o with tier := Tier.episodic } ∈ sAfter4.records ∧
        ∀ q ∈ sAfter4.records, q.id = o.id →
          q = { o with tier := Tier.episodic }) ∧
      ∀ p ∈ s4.records, p ≠ o → p ∈ sAfter4.records :=
  claim_C4.2 cfg4 0 s4 "u" "c" "general" [] (some (mkRat 1 10)) rNew4 sAfter4
    rfl rfl (by decide) (by decide) (by decide) (by decide) (by decide)
    (by decide)

/-- Claim C10: with the default configuration the wisdom consolidation
threshold is 0.9; a record remembered with explicit importance at least
0.9 is placed directly in the wisdom (vijnanamaya) tier; wisdom records
survive eviction on remember, promotion sweeps, TTL sweeps and
compression untouched; and explicit forget / forget_all do remove
records. -/
theorem claim_C10 :
    defaultConfig.wisdomThreshold = 9/10 ∧
    (∀ (sem : ℚ) (s : Store) (sid c cat : String)
      (md : List (String × String)) (i : ℚ),
      sid ≠ "" → 9/10 ≤ i → i ≤ 1 →
      ∃ r s2, remember defaultConfig sem s sid c cat md (some i) =
          Except.ok (r, s2) ∧ r.tier = Tier.wisdom ∧ r ∈ s2.records) ∧
    (∀ (cfg : Config) (s : Store),
      (s.records.Pairwise fun a b => a.id < b.id) →
      ∀ r ∈ s.records, r.tier = Tier.wisdom →
        (∀ (sem : ℚ) (sid c cat : String) (md : List (String × String))
          (i? : Option ℚ),
          r ∈ (applyOp cfg s (Op.opRemember sem sid c cat md i?)).records) ∧
        r ∈ (applyOp cfg s Op.opPromote).records ∧
        r ∈ (applyOp cfg s Op.opEvictDue).records ∧
        ∀ (summarize : List String → Except Err String) (dfac : Nat → ℚ),
          r ∈ (applyOp cfg s (Op.opCompress summarize dfac)).records) ∧
    (∀ (s : Store) (mid : Nat) (s2 : Store),
      forget s mid = Except.ok s2 → ∀ q ∈ s2.records, q.id ≠ mid) ∧
    ∀ (s : Store) (sid : String),
      ∀ q ∈ (forget_all s sid none).2.records, q.sessionId ≠ sid := by
  have hthr : defaultConfig.wisdomThreshold = 9/10 := by
    rw [show defaultConfig.wisdomThreshold = mkRat 9 10 from rfl,
      Rat.mkRat_eq_div]
    norm_num
  refine ⟨hthr, ?_, ?_, ?_, ?_⟩
  · intro sem s sid c cat md i hsid hi hi1
    have himpok : impOk (some i) = true := by
      simp only [impOk, Bool.and_eq_true, decide_eq_true_eq]
      exact ⟨le_trans (by norm_num) hi, hi1⟩
    have hwis : defaultConfig.wisdomThreshold ≤ i := by
      rw [hthr]
      exact hi
    refine ⟨mkRecord s sid c cat md i Tier.wisdom,
      { records := s.records ++ [mkRecord s sid c cat md i Tier.wisdom]
        nextId := s.nextId + 1
        clock := s.clock + 1 }, ?_, rfl,
      List.mem_append_right _ (List.mem_cons_self _ _)⟩
    simp only [remember]
    rw [if_neg hsid, if_pos himpok, if_pos hwis]
  · intro cfg s hpw r hr hw
    have hnw : r.tier ≠ Tier.working := by
      rw [hw]
      intro hcx
      cases hcx
    refine ⟨?_, ?_, ?_, ?_⟩
    · intro sem sid c cat md i?
      simp only [applyOp]
      rcases hrem : remember cfg sem s sid c cat md i? with e | ⟨rn, s2⟩
      · simp only [hrem]
        exact hr
      · simp only [hrem]
        obtain ⟨_, _, _, _, _, _, _, _, _, hrec⟩ := remember_ok_cases hrem
        rcases hrec with ⟨he, _⟩ | ⟨he, _, _⟩
        · rw [he]
          exact List.mem_append_left _ hr
        · rw [he]
          exact evictOldest_keeps_nonworking cfg (List.mem_append_left _ hr) hnw
    · simp only [applyOp, promote_candidates]
      refine List.mem_map.mpr ⟨r, hr, ?_⟩
      rw [if_neg fun hc => by rw [hw] at hc; cases hc.1]
    · simp only [applyOp, evict_due]
      exact evictExpired_keeps_nonworking cfg s.clock hr hnw
    · intro summarize dfac
      simp only [applyOp]
      rcases hcp : compress cfg summarize dfac s with e | s2
      · simp only [hcp]
        exact hr
      · simp only [hcp]
        exact compress_keeps_protected hpw hcp hr (Or.inl hw)
  · intro s mid s2 hfo q hq
    obtain ⟨he, _, _⟩ := forget_ok_records hfo
    rw [he] at hq
    have h2 := (List.mem_filter.mp hq).2
    simp only [Bool.not_eq_eq_eq_not, Bool.not_true, decide_eq_false_iff_not] at h2
    exact h2
  · intro s sid q hq
    simp only [forget_all] at hq
    have h2 := (List.mem_filter.mp hq).2
    intro hqs
    rw [hqs] at h2
    simp at h2

/-- Witness for C10 at concrete stores: a 0.95-importance remember lands
in wisdom; the sample wisdom record survives promotion and compression;
forgetting removes by id and by session. -/
theorem claim_C10_witness :
    (∃ r s2, remember defaultConfig 0 emptyStore "u" "k" "fact" []
        (some (mkRat 95 100)) = Except.ok (r, s2) ∧
      r.tier = Tier.wisdom ∧ r ∈ s2.records) ∧
    (recWis ∈ sTwo.records ∧ recWis.tier = Tier.wisdom ∧
      recWis ∈ (applyOp cfgW sTwo Op.opPromote).records ∧
      recWis ∈ (applyOp cfgW sTwo Op.opEvictDue).records ∧
      recWis ∈ (applyOp cfgW sTwo
        (Op.opCompress (fun _ => Except.ok "s") dfacOne)).records) ∧
    (forget sTen 1 = Except.ok sF10 ∧ ∀ q ∈ sF10.records, q.id ≠ 1) ∧
    (recV ∈ (forget_all sTen "u" none).2.records ∧ recV.sessionId ≠ "u") := by
  have h := claim_C10
  have hsv := h.2.2.1 cfgW sTwo (by decide) recWis (by decide) (by decide)
  have hfo : forget sTen 1 = Except.ok sF10 := by rfl
  refine ⟨h.2.1 0 emptyStore "u" "k" "fact" [] (mkRat 95 100) (by decide)
      (by norm_num [Rat.mkRat_eq_div]) (by decide),
    ⟨by decide, by decide, hsv.2.1, hsv.2.2.1,
      hsv.2.2.2 (fun _ => Except.ok "s") dfacOne⟩,
    ⟨hfo, h.2.2.2.1 sTen 1 sF10 hfo⟩,
    ⟨by decide, h.2.2.2.2 sTen "u" recV (by decide)⟩⟩

/-- Claim C5: recall gathers candidates from all tiers of the session,
scores each with the injected similarity combined with the lazily
decayed importance, filters by the caller's minimum score, category and
date range, sorts descending by combined score with ties broken by
importance then created-at, and returns at most `limit` results; when
the passing candidates fit within the limit, every one of them is
returned. -/
theorem claim_C5 (cfg : Config) (sim : String → String → ℚ)
    (combine : ℚ → ℚ → ℚ) (dfac : Nat → ℚ) (s : Store) (sid query : String)
    (limit : Nat) (cat? : Option String) (minScore : ℚ)
    (after? before? : Option Nat) :
    (recallOp cfg sim combine dfac s sid query limit cat? minScore
      after? before?).length ≤ limit ∧
    List.Sorted recallLE (recallOp cfg sim combine dfac s sid query limit cat?
      minScore after? before?) ∧
    (∀ x ∈ recallOp cfg sim combine dfac s sid query limit cat? minScore
        after? before?,
      x.entry ∈ s.records ∧ x.entry.sessionId = sid ∧
      matchesCat cat? x.entry = true ∧
      inDateRange after? before? x.entry = true ∧ minScore ≤ x.score ∧
      x.score = combine (sim query x.entry.content)
        (effImp cfg dfac s.clock x.entry)) ∧
    ∀ r ∈ s.records, r.sessionId = sid → matchesCat cat? r = true →
      inDateRange after? before? r = true →
      minScore ≤ combine (sim query r.content) (effImp cfg dfac s.clock r) →
      ((((s.records.filter fun p =>
          decide (p.sessionId = sid) && matchesCat cat? p &&
            inDateRange after? before? p).map fun p =>
          (⟨p, combine (sim query p.content)
            (effImp cfg dfac s.clock p)⟩ : ScoredRecord)).filter fun x =>
          decide (minScore ≤ x.score)).length ≤ limit) →
      ((⟨r, combine (sim query r.content)
          (effImp cfg dfac s.clock r)⟩ : ScoredRecord) ∈
        recallOp cfg sim combine dfac s sid query limit cat? minScore
          after? before?) := by
  refine ⟨?_, ?_, ?_, ?_⟩
  · unfold recallOp
    rw [List.length_take]
    exact inf_le_left
  · unfold recallOp
    exact List.Pairwise.sublist (List.take_sublist _ _)
      (List.sorted_insertionSort recallLE _)
  · intro x hx
    unfold recallOp at hx
    have h1 := List.mem_of_mem_take hx
    have h2 := (List.perm_insertionSort _ _).mem_iff.mp h1
    obtain ⟨hmem, hmin⟩ := List.mem_filter.mp h2
    obtain ⟨p, hp, hpe⟩ := List.mem_map.mp hmem
    obtain ⟨hps, hcond⟩ := List.mem_filter.mp hp
    simp only [Bool.and_eq_true, decide_eq_true_eq] at hcond
    subst hpe
    refine ⟨hps, hcond.1.1, hcond.1.2, hcond.2, ?_, rfl⟩
    simpa using hmin
  · intro r hr hses hcat hdate hmin hlen
    unfold recallOp
    have hx : (⟨r, combine (sim query r.content)
          (effImp cfg dfac s.clock r)⟩ : ScoredRecord) ∈
        ((s.records.filter fun p =>
          decide (p.sessionId = sid) && matchesCat cat? p &&
            inDateRange after? before? p).map fun p =>
          (⟨p, combine (sim query p.content)
            (effImp cfg dfac s.clock p)⟩ : ScoredRecord)).filter fun x =>
          decide (minScore ≤ x.score) := by
      refine List.mem_filter.mpr ⟨?_, by simpa using hmin⟩
      refine List.mem_map.mpr ⟨r, ?_, rfl⟩
      refine List.mem_filter.mpr ⟨hr, ?_⟩
      simp only [Bool.and_eq_true, decide_eq_true_eq]
      exact ⟨⟨hses, hcat⟩, hdate⟩
    have hperm := List.perm_insertionSort recallLE
      (((s.records.filter fun p =>
        decide (p.sessionId = sid) && matchesCat cat? p &&
          inDateRange after? before? p).map fun p =>
        (⟨p, combine (sim query p.content)
          (effImp cfg dfac s.clock p)⟩ : ScoredRecord)).filter fun x =>
        decide (minScore ≤ x.score))
    rw [List.take_of_length_le (by rw [hperm.length_eq]; exact hlen)]
    exact hperm.mem_iff.mpr hx

/-- Witness for C5: recall on the concrete two-record store with the
minimum combiner returns both records ranked; the wisdom record ranks
first and the low-importance episodic record is still returned within
the limit. -/
theorem claim_C5_witness :
    (recallOp cfgW simC9 combineMin dfacOne sTwo "u" "q" 5 none 0
      none none).length ≤ 5 ∧
    List.Sorted recallLE (recallOp cfgW simC9 combineMin dfacOne sTwo "u" "q" 5
      none 0 none none) ∧
    ((⟨recWis, mkRat 1 2⟩ : ScoredRecord) ∈
      recallOp cfgW simC9 combineMin dfacOne sTwo "u" "q" 5 none 0 none none ∧
      recWis ∈ sTwo.records ∧ recWis.sessionId = "u" ∧
      mkRat 1 2 = combineMin (simC9 "q" recWis.content)
        (effImp cfgW dfacOne sTwo.clock recWis)) ∧
    ((⟨recEp, combineMin (simC9 "q" recEp.content)
        (effImp cfgW dfacOne sTwo.clock recEp)⟩ : ScoredRecord) ∈
      recallOp cfgW simC9 combineMin dfacOne sTwo "u" "q" 5 none 0 none none) := by
  have h := claim_C5 cfgW simC9 combineMin dfacOne sTwo "u" "q" 5 none 0
    none none
  have hwis : (⟨recWis, mkRat 1 2⟩ : ScoredRecord) ∈
      recallOp cfgW simC9 combineMin dfacOne sTwo "u" "q" 5 none 0 none none := by
    decide
  have hmm := h.2.2.1 _ hwis
  refine ⟨h.1, h.2.1, ⟨hwis, hmm.1, hmm.2.1, ?_⟩, ?_⟩
  · exact hmm.2.2.2.2.2
  · exact h.2.2.2 recEp (by decide) (by decide) (by decide) (by decide)
      (by decide) (by decide)

/-- Claim C7: when the agent chose a compression action and the injected
capability fails, the facade keeps the post-insert store intact (the
batch is all-or-nothing, no candidate is removed), records the strongly
negative reward, falls back to wait for the cycle, and still returns
success to the caller; a summarization failure on a nonempty batch is
exactly what makes compress fail; ValidationError and NotFoundError are
returned to the caller right away. -/
theorem claim_C7 :
    strongNegativeReward < 0 ∧
    (∀ (cfg : Config) (summarize : List String → Except Err String)
      (dfac : Nat → ℚ) (profile : RewardProfile) (quality : ℚ)
      (chosen : Action) (sem : ℚ) (s : Store) (sid c cat : String)
      (md : List (String × String)) (i? : Option ℚ) (r : MemoryRecord)
      (s1 : Store) (e : Err),
      isCompressAction chosen = true →
      remember cfg sem s sid c cat md i? = Except.ok (r, s1) →
      compress cfg summarize dfac s1 = Except.error e →
      rememberCycle cfg summarize dfac profile quality chosen sem s sid c cat
          md i? =
        Except.ok (r, s1, { action := Action.wait
                            reward := strongNegativeReward })) ∧
    (∀ (cfg : Config) (summarize : List String → Except Err String)
      (dfac : Nat → ℚ) (s1 : Store) (c : MemoryRecord)
      (cs : List MemoryRecord) (e : Err),
      select_candidates cfg dfac s1.clock s1 = c :: cs →
      summarize ((c :: cs).map fun r => r.content) = Except.error e →
      compress cfg summarize dfac s1 = Except.error Err.capabilityUnavailable) ∧
    (∀ (cfg : Config) (sem : ℚ) (s : Store) (c cat : String)
      (md : List (String × String)) (i? : Option ℚ),
      remember cfg sem s "" c cat md i? = Except.error Err.validation) ∧
    ∀ (s : Store) (mid : Nat) (c? cat? : Option String)
      (md? : Option (List (String × String))) (i? : Option ℚ),
      impOk i? = true → (∀ p ∈ s.records, p.id ≠ mid) →
      update s mid c? cat? md? i? = Except.error Err.notFound := by
  refine ⟨by norm_num [strongNegativeReward], ?_, ?_, ?_, ?_⟩
  · intro cfg summarize dfac profile quality chosen sem s sid c cat md i? r s1
      e hch hrem hfail
    unfold rememberCycle
    simp only [hrem]
    rw [if_pos hch]
    simp only [hfail]
  · intro cfg summarize dfac s1 c cs e hsel hsum
    unfold compress
    simp only [hsel, hsum]
  · intro cfg sem s c cat md i?
    unfold remember
    rw [if_pos rfl]
  · intro s mid c? cat? md? i? hok hmid
    have hf : s.records.find? (fun p => decide (p.id = mid)) = none :=
      List.find?_eq_none.mpr fun x hx => by simpa using hmid x hx
    unfold update
    rw [if_pos hok]
    simp only [hf]

/-- Witness for C7: remembering into the concrete store with an
always-failing summarizer and a chosen compress action keeps the
post-insert store, yields wait with the strongly negative reward, and
the call still succeeds; the unknown-id update surfaces NotFoundError
and the empty-session remember surfaces ValidationError. -/
theorem claim_C7_witness :
    strongNegativeReward < 0 ∧
    rememberCycle cfgW (fun _ => Except.error Err.capabilityUnavailable) dfacOne
        RewardProfile.costFocused 0 Action.compressBalanced 0 sTwo "u" "c"
        "general" [] (some (mkRat 1 10)) =
      Except.ok (r7, s7, { action := Action.wait
                           reward := strongNegativeReward }) ∧
    compress cfgW (fun _ => Except.error Err.capabilityUnavailable) dfacOne s7 =
      Except.error Err.capabilityUnavailable ∧
    remember cfgW 0 sTwo "" "x" "general" [] none = Except.error Err.validation ∧
    update sTwo 99 none none none none = Except.error Err.notFound := by
  have h := claim_C7
  have hfail : compress cfgW (fun _ => Except.error Err.capabilityUnavailable)
      dfacOne s7 = Except.error Err.capabilityUnavailable :=
    h.2.2.1 cfgW (fun _ => Except.error Err.capabilityUnavailable) dfacOne s7
      recEp [] Err.capabilityUnavailable (by decide) rfl
  refine ⟨h.1, ?_, hfail, h.2.2.2.1 cfgW 0 sTwo "x" "general" [] none,
    h.2.2.2.2 sTwo 99 none none none none rfl (by decide)⟩
  exact h.2.1 cfgW (fun _ => Except.error Err.capabilityUnavailable) dfacOne
    RewardProfile.costFocused 0 Action.compressBalanced 0 sTwo "u" "c"
    "general" [] (some (mkRat 1 10)) r7 s7 Err.capabilityUnavailable rfl rfl
    hfail

/-- Claim C8: the exploration rate starts at 0.30, is non-increasing in
the episode count with floor 0.05, is at most 0.05 from episode 200 on
(indeed from 50 on), and the Q-table only grows: a learning step never
shrinks it and never drops a key; epsilon never rises across a step. -/
theorem claim_C8 :
    epsilon resetAgent = 3/10 ∧
    (∀ m n : Nat, m ≤ n → epsilonOf n ≤ epsilonOf m) ∧
    (∀ n : Nat, 1/20 ≤ epsilonOf n) ∧
    (∀ n : Nat, 200 ≤ n → epsilonOf n ≤ 1/20) ∧
    ∀ (lr disc : ℚ) (a : Agent) (st : AgentState) (act : Action) (rew : ℚ)
      (st2 : AgentState),
      a.qtable.length ≤ (agentLearn lr disc a st act rew st2).qtable.length ∧
      (∀ en ∈ a.qtable,
        ∃ en2 ∈ (agentLearn lr disc a st act rew st2).qtable, en2.1 = en.1) ∧
      epsilon (agentLearn lr disc a st act rew st2) ≤ epsilon a := by
  have hmono : ∀ m n : Nat, m ≤ n → epsilonOf n ≤ epsilonOf m := by
    intro m n hmn
    unfold epsilonOf
    split_ifs <;> first | decide | (exfalso; omega)
  refine ⟨?_, hmono, ?_, ?_, ?_⟩
  · norm_num [epsilon, resetAgent, epsilonOf, Rat.mkRat_eq_div]
  · intro n
    unfold epsilonOf
    split_ifs <;> norm_num [Rat.mkRat_eq_div]
  · intro n hn
    have h50 : epsilonOf n = mkRat 1 20 := by
      unfold epsilonOf
      rw [if_neg (by omega), if_neg (by omega)]
    rw [h50]
    norm_num [Rat.mkRat_eq_div]
  · intro lr disc a st act rew st2
    refine ⟨?_, ?_, hmono a.episodes (a.episodes + 1) (Nat.le_succ _)⟩
    · unfold agentLearn qUpdate
      by_cases hany : (a.qtable.any fun en => decide (en.1 = (st, act))) = true
      · rw [if_pos hany]
        rw [List.length_map]
      · rw [if_neg hany]
        rw [List.length_append]
        omega
    · intro en hen
      unfold agentLearn qUpdate
      by_cases hany : (a.qtable.any fun en => decide (en.1 = (st, act))) = true
      · rw [if_pos hany]
        refine ⟨if en.1 = (st, act) then ((st, act),
          qLearnValue lr disc (qLookup a.qtable (st, act)) rew
            (maxQ a.qtable st2)) else en, List.mem_map.mpr ⟨en, hen, rfl⟩, ?_⟩
        by_cases hk : en.1 = (st, act)
        · rw [if_pos hk, hk]
        · rw [if_neg hk]
      · rw [if_neg hany]
        exact ⟨en, List.mem_append_left _ hen, rfl⟩

/-- Witness for C8 at concrete episode counts and a concrete learning
step from the fresh agent. -/
theorem claim_C8_witness :
    epsilon resetAgent = 3/10 ∧
    ((3 : Nat) ≤ 60 ∧ epsilonOf 60 ≤ epsilonOf 3) ∧
    (1/20 ≤ epsilonOf 7) ∧
    ((200 : Nat) ≤ 200 ∧ epsilonOf 200 ≤ 1/20) ∧
    resetAgent.qtable.length ≤
      (agentLearn 1 0 resetAgent st0 Action.wait 1 st0).qtable.length ∧
    epsilon (agentLearn 1 0 resetAgent st0 Action.wait 1 st0) ≤
      epsilon resetAgent := by
  have h := claim_C8
  have hstep := h.2.2.2.2 1 0 resetAgent st0 Action.wait 1 st0
  exact ⟨h.1, ⟨by decide, h.2.1 3 60 (by decide)⟩, h.2.2.1 7,
    ⟨by decide, h.2.2.2.1 200 (by decide)⟩, hstep.1, hstep.2.2⟩

/-- Recall with default filters on a single-record store returns exactly
that record. -/
theorem recallOp_single (cfg : Config) (sim : String → String → ℚ)
    (combine : ℚ → ℚ → ℚ) (dfac : Nat → ℚ) (r : MemoryRecord)
    (nid clk : Nat) (sid query : String) (hses : r.sessionId = sid)
    (heff : effImp cfg dfac clk r = r.importance)
    (hsc : 0 ≤ combine (sim query r.content) r.importance) :
    recallOp cfg sim combine dfac { records := [r], nextId := nid, clock := clk }
        sid query 1 none 0 none none =
      [⟨r, combine (sim query r.content) r.importance⟩] := by
  unfold recallOp
  simp only [matchesCat, inDateRange, List.filter_cons, List.filter_nil,
    hses, Bool.and_true, Bool.true_and, decide_eq_true_eq]
  rw [if_pos trivial]
  simp only [List.map_cons, List.map_nil, heff, List.filter_cons,
    List.filter_nil, decide_eq_true_eq]
  rw [if_pos hsc]
  rfl

/-- Claim C9 (amended): the round trip holds when the session store held
no prior records — remembering into an empty store and recalling with
the stored content as query and limit 1 (and a combined score meeting
the default minimum) returns exactly that record, content verbatim. -/
theorem claim_C9_amended (cfg : Config) (sim : String → String → ℚ)
    (combine : ℚ → ℚ → ℚ) (dfac : Nat → ℚ) (sid content cat : String)
    (md : List (String × String)) (sem : ℚ) (i? : Option ℚ)
    (hsid : sid ≠ "") (hok : impOk i? = true)
    (hcap : 1 ≤ cfg.workingCapacity) :
    ∃ r s2, remember cfg sem emptyStore sid content cat md i? =
        Except.ok (r, s2) ∧
      r.content = content ∧ r.sessionId = sid ∧
      (0 ≤ combine (sim content content) r.importance →
        recallOp cfg sim combine dfac s2 sid content 1 none 0 none none =
          [⟨r, combine (sim content content) r.importance⟩]) := by
  have hnoevict : ∀ imp : ℚ,
      insertWorking cfg emptyStore
          (mkRecord emptyStore sid content cat md imp Tier.working) =
        { records := [mkRecord emptyStore sid content cat md imp Tier.working]
          nextId := 1
          clock := 1 } := by
    intro imp
    have hcw : countWorking (emptyStore.records ++
        [mkRecord emptyStore sid content cat md imp Tier.working]) = 1 := by
      rw [countWorking_append]
      rw [countWorking_cons_working _ rfl]
      rfl
    simp only [insertWorking]
    rw [hcw, if_neg (by omega)]
    rfl
  rcases i? with _ | i
  · have hrem : remember cfg sem emptyStore sid content cat md none =
        Except.ok (mkRecord emptyStore sid content cat md (autoScore sem cat)
            Tier.working,
          { records := [mkRecord emptyStore sid content cat md
              (autoScore sem cat) Tier.working]
            nextId := 1
            clock := 1 }) := by
      simp only [remember]
      rw [if_neg hsid, if_pos (show impOk none = true from rfl), hnoevict]
    exact ⟨_, _, hrem, rfl, rfl, fun hsc =>
      recallOp_single cfg sim combine dfac _ 1 1 sid content rfl rfl hsc⟩
  · by_cases hwis : cfg.wisdomThreshold ≤ i
    · have hrem : remember cfg sem emptyStore sid content cat md (some i) =
          Except.ok (mkRecord emptyStore sid content cat md i Tier.wisdom,
            { records := [mkRecord emptyStore sid content cat md i Tier.wisdom]
              nextId := 1
              clock := 1 }) := by
        simp only [remember]
        rw [if_neg hsid, if_pos hok, if_pos hwis]
        rfl
      exact ⟨_, _, hrem, rfl, rfl, fun hsc =>
        recallOp_single cfg sim combine dfac _ 1 1 sid content rfl rfl hsc⟩
    · have hrem : remember cfg sem emptyStore sid content cat md (some i) =
          Except.ok (mkRecord emptyStore sid content cat md i Tier.working,
            { records := [mkRecord emptyStore sid content cat md i Tier.working]
              nextId := 1
              clock := 1 }) := by
        simp only [remember]
        rw [if_neg hsid, if_pos hok, if_neg hwis, hnoevict]
      exact ⟨_, _, hrem, rfl, rfl, fun hsc =>
        recallOp_single cfg sim combine dfac _ 1 1 sid content rfl rfl hsc⟩

/-- Counterexample to C9 as frozen: with a prior record in the store, a
freshly remembered low-importance record loses the top-1 recall slot to
an older record with different content, even though the similarity
capability scores the query's own content highest. -/
theorem claim_C9_counterexample :
    simC9 "a" "a" = 1 ∧
    remember cfgW 0 sC9 "u" "a" "general" [] (some (mkRat 1 10)) =
      Except.ok (recA9, s9) ∧
    recallOp cfgW simC9 combineMin dfacOne s9 "u" "a" 1 none 0 none none =
      [⟨recB9, mkRat 9 10⟩] ∧
    recB9 ≠ recA9 ∧ recB9.content ≠ "a" := by
  refine ⟨by decide, rfl, by decide, by decide, by decide⟩

/-- Witness for C9 (amended) with the concrete similarity and combiner
on an empty store. -/
theorem claim_C9_witness :
    ("u" : String) ≠ "" ∧ impOk (some (mkRat 1 2)) = true ∧
    1 ≤ cfgW.workingCapacity ∧
    ∃ r s2, remember cfgW 0 emptyStore "u" "a" "general" []
        (some (mkRat 1 2)) = Except.ok (r, s2) ∧
      r.content = "a" ∧ r.sessionId = "u" ∧
      (0 ≤ combineMin (simC9 "a" "a") r.importance →
        recallOp cfgW simC9 combineMin dfacOne s2 "u" "a" 1 none 0 none none =
          [⟨r, combineMin (simC9 "a" "a") r.importance⟩]) :=
  ⟨by decide, by decide, by decide,
    claim_C9_amended cfgW simC9 combineMin dfacOne "u" "a" "general" [] 0
      (some (mkRat 1 2)) (by decide) (by decide) (by decide)⟩

end Vidurai
